import Mathlib

/-!
Verification development for the webscraper repository.

The development shallowly embeds the TypeScript source:
- crawl.ts : normalizeURL, getHTML, extractPageData and its four extraction
  helpers, ConcurrentCrawler (addPageVisit, the gated private getHTML,
  crawlPage, crawl) and crawlSiteAsync;
- index.ts : the CLI entry point after argument parsing;
- the report writer's csvEscape.

URLs are modelled by a record with the WHATWG fields used by the source
(hostname, port, pathname, search, fragment) together with a parser for
absolute http-style references of the shape scheme://host[:port]path
[?query][#fragment]; this is the fragment of the WHATWG grammar the
crawler's behaviour depends on (case folding of scheme/host, default-port
elision, percent-encoding and path dot-segment removal are not modelled;
no claim depends on them).

The cooperative single-threaded scheduling of the source (spec section 5:
the admission step is atomic, the final ledger is deterministic for a
fixed link graph) is modelled by a sequential interpretation of the
traversal; recursion depth is made explicit with a fuel parameter, and
termination of the source recursion is the statement that some fuel
returns a result.
-/

namespace Webscraper

/-! ## URL model -/

/-- A parsed URL, with the WHATWG-named fields used by the source.
Conventions follow the WHATWG accessors the code reads: the port is kept
separately from the hostname, the pathname starts with a slash, the
search string carries its leading question mark and the fragment its leading
number sign (each empty when absent). -/
structure URLRec where
  scheme : String
  hostname : String
  port : Option String
  pathname : String
  search : String
  fragment : String
deriving DecidableEq

/-- Characters that end the authority component: a slash, question mark
or number sign. -/
def isAuthEnd (c : Char) : Bool := c == '/' || c == '?' || c == '#'

/-- Characters allowed after the first character of a scheme. -/
def isSchemeChar (c : Char) : Bool := c.isAlphanum || c == '+' || c == '-' || c == '.'

/-- A scheme is a letter followed by letters, digits, plus, minus or dot. -/
def schemeOK : List Char → Bool
  | [] => false
  | c :: rest => c.isAlpha && rest.all isSchemeChar

/-- Split a character list at the first character satisfying p: returns
the maximal p-free front and the remainder (which is empty or starts with
a character satisfying p). -/
def takeUntil (p : Char → Bool) : List Char → List Char × List Char
  | [] => ([], [])
  | c :: rest =>
    if p c then ([], c :: rest)
    else (c :: (takeUntil p rest).1, (takeUntil p rest).2)

/-- Validation of the authority's port part: nothing after the hostname
means no port, a colon followed by digits only is an (optional) port, and
anything else makes the whole URL unparsable, as in the WHATWG parser. -/
def portSpec : List Char → Option (Option String)
  | [] => some none
  | c :: ds =>
    if c == ':' then
      if ds.all Char.isDigit then
        some (if ds.isEmpty then none else some (String.mk ds))
      else none
    else none

/-- First stage of the URL parser: a valid scheme followed by the
colon-slash-slash separator; returns the scheme characters and what
follows the separator. -/
def parseScheme (cs : List Char) : Option (List Char × List Char) :=
  match takeUntil (fun c => c == ':') cs with
  | (schemeCs, ':' :: '/' :: '/' :: rest2) =>
    if schemeOK schemeCs then some (schemeCs, rest2) else none
  | _ => none

/-- Second stage: split the authority into a non-empty hostname and a
validated optional port. -/
def parseHostPort (authCs : List Char) : Option (List Char × Option String) :=
  match takeUntil (fun c => c == ':') authCs with
  | ([], _) => none
  | (h :: hostCs, portPart) =>
    match portSpec portPart with
    | none => none
    | some port => some (h :: hostCs, port)

/-- Third stage: split everything after the authority into path
characters, search characters (with the leading question mark) and
fragment characters (with the leading number sign). -/
def splitTail (rest3 : List Char) : List Char × List Char × List Char :=
  match takeUntil (fun c => c == '?' || c == '#') rest3 with
  | (pathCs, []) => (pathCs, [], [])
  | (pathCs, c :: qrest) =>
    if c == '?' then
      (pathCs, '?' :: (takeUntil (fun c => c == '#') qrest).1,
       (takeUntil (fun c => c == '#') qrest).2)
    else (pathCs, [], c :: qrest)

/-- Assembling the record from the parsed pieces: an empty path prints
as the root path, as in the WHATWG parser. -/
def assembleURL (schemeCs hostCs : List Char) (port : Option String)
    (t : List Char × List Char × List Char) : URLRec :=
  ⟨String.mk schemeCs, String.mk hostCs, port,
   if t.1.isEmpty then "/" else String.mk t.1,
   String.mk t.2.1, String.mk t.2.2⟩

/-- Parser for absolute URL references, on character lists.
Models URL.parse / new URL for inputs of the shape
scheme://host[:port][/path][?query][#fragment]; anything else (in
particular any string without the scheme separator) fails, as
URL.parse fails on input that is not an absolute URL. -/
def parseURLCs (cs : List Char) : Option URLRec :=
  (parseScheme cs).bind fun sr =>
    (parseHostPort (takeUntil isAuthEnd sr.2).1).map fun hp =>
      assembleURL sr.1 hp.1 hp.2 (splitTail (takeUntil isAuthEnd sr.2).2)

/-- Models URL.parse: some parsed record for an absolute URL, none
otherwise (new URL on the same input throws). -/
def parseURL (s : String) : Option URLRec := parseURLCs s.data

/-- The host accessor: hostname plus the explicit port when present. -/
def hostStr (r : URLRec) : String :=
  r.hostname ++ (match r.port with | none => "" | some p => ":" ++ p)

/-- Whether a string ends with a slash; models str.endsWith of a slash. -/
def endsSlash (s : String) : Bool :=
  match s.data.getLast? with
  | some '/' => true
  | _ => false

/-- Models the stripTrailingSlash closure of normalizeURL:
str.endsWith of a slash selects str.slice dropping the last character. -/
def stripTrailingSlash (s : String) : String :=
  if endsSlash s then String.mk s.data.dropLast else s

/-- The dedup key normalizeURL builds: host concatenated with the
slash-stripped pathname. -/
def mkKey (r : URLRec) : String := hostStr r ++ stripTrailingSlash r.pathname

/-- Models normalizeURL of crawl.ts: parse the input with URL.parse,
throw an invalid-url error when that fails, otherwise return host
concatenated with the trailing-slash-stripped pathname. -/
def normalizeURL (input : String) : Except Unit String :=
  match parseURL input with
  | none => .error ()
  | some r => .ok (mkKey r)

/-- The serialization new URL(...).toString() produces for the records
of this model. -/
def printURL (r : URLRec) : String :=
  r.scheme ++ "://" ++ hostStr r ++ r.pathname ++ r.search ++ r.fragment

/-! ## Well-formedness of parsed URL records -/

/-- The shape every record produced by parseURL has; it is exactly what
is needed to read the record back off its serialization. -/
def URLWF (r : URLRec) : Prop :=
  schemeOK r.scheme.data = true ∧
  r.hostname.data ≠ [] ∧
  (∀ c ∈ r.hostname.data, (c == ':' || isAuthEnd c) = false) ∧
  (match r.port with
   | none => True
   | some p => p.data ≠ [] ∧ ∀ c ∈ p.data, c.isDigit = true) ∧
  (∃ t, r.pathname.data = '/' :: t) ∧
  (∀ c ∈ r.pathname.data, (c == '?' || c == '#') = false) ∧
  (r.search.data = [] ∨ ∃ qs, r.search.data = '?' :: qs ∧ ∀ c ∈ qs, (c == '#') = false) ∧
  (r.fragment.data = [] ∨ ∃ hs, r.fragment.data = '#' :: hs)

theorem mk_data (s : String) : String.mk s.data = s := rfl

theorem takeUntil_fst_append_snd (p : Char → Bool) (l : List Char) :
    (takeUntil p l).1 ++ (takeUntil p l).2 = l := by
  induction l with
  | nil => rfl
  | cons c rest ih =>
    by_cases h : p c
    · simp [takeUntil, h]
    · simp [takeUntil, h, ih]

theorem takeUntil_fst_false (p : Char → Bool) (l : List Char) :
    ∀ c ∈ (takeUntil p l).1, p c = false := by
  induction l with
  | nil => intro c hc; simp [takeUntil] at hc
  | cons d rest ih =>
    by_cases h : p d
    · intro c hc; simp [takeUntil, h] at hc
    · intro c hc
      simp only [takeUntil, if_neg h, List.mem_cons] at hc
      rcases hc with rfl | hc
      · exact Bool.eq_false_iff.mpr h
      · exact ih c hc

theorem takeUntil_snd_shape (p : Char → Bool) (l : List Char) :
    (takeUntil p l).2 = [] ∨ ∃ c r, (takeUntil p l).2 = c :: r ∧ p c = true := by
  induction l with
  | nil => left; rfl
  | cons d rest ih =>
    by_cases h : p d
    · right; exact ⟨d, rest, by simp [takeUntil, h], h⟩
    · simpa [takeUntil, h] using ih

theorem takeUntil_append (p : Char → Bool) (l₁ l₂ : List Char)
    (h₁ : ∀ c ∈ l₁, p c = false)
    (h₂ : l₂ = [] ∨ ∃ c r, l₂ = c :: r ∧ p c = true) :
    takeUntil p (l₁ ++ l₂) = (l₁, l₂) := by
  induction l₁ with
  | nil =>
    rcases h₂ with rfl | ⟨c, r, rfl, hc⟩
    · rfl
    · simp [takeUntil, hc]
  | cons d rest ih =>
    have hd : p d = false := h₁ d (by simp)
    have := ih (fun c hc => h₁ c (by simp [hc]))
    simp [takeUntil, hd, this]

theorem mem_of_takeUntil_fst {p : Char → Bool} {l : List Char} {c : Char}
    (h : c ∈ (takeUntil p l).1) : c ∈ l := by
  rw [← takeUntil_fst_append_snd p l]
  exact List.mem_append_left _ h

/-- If a character satisfies f but x does not, the two differ. -/
theorem ne_of_pred {c x : Char} (f : Char → Bool) (h : f c = true) (hx : f x = false) :
    (c == x) = false := by
  cases hc : (c == x)
  · rfl
  · rw [beq_iff_eq] at hc
    subst hc
    rw [h] at hx
    cases hx

theorem schemeOK_no_colon {cs : List Char} (h : schemeOK cs = true) :
    ∀ c ∈ cs, (c == ':') = false := by
  match cs with
  | [] => intro c hc; cases hc
  | d :: rest =>
    simp only [schemeOK, Bool.and_eq_true] at h
    intro c hc
    rcases List.mem_cons.mp hc with rfl | hc
    · exact ne_of_pred Char.isAlpha h.1 (by decide)
    · exact ne_of_pred isSchemeChar (by
        have := (List.all_eq_true.mp h.2) c hc
        simpa using this) (by decide)

theorem parseScheme_inv {cs a b : List Char} (h : parseScheme cs = some (a, b)) :
    schemeOK a = true ∧ cs = a ++ ':' :: '/' :: '/' :: b := by
  unfold parseScheme at h
  rcases htu : takeUntil (fun c => c == ':') cs with ⟨a0, rest⟩
  rw [htu] at h
  split at h
  · next schemeCs rest2 hpair =>
    injection hpair with h1 h2
    subst h1; subst h2
    split at h
    · next hok =>
      injection h with h
      injection h with h1 h2
      subst h1; subst h2
      refine ⟨hok, ?_⟩
      rw [← takeUntil_fst_append_snd (fun c => c == ':') cs, htu]
    · exact absurd h (by simp)
  · exact absurd h (by simp)

theorem parseScheme_comp {a b : List Char} (hok : schemeOK a = true) :
    parseScheme (a ++ ':' :: '/' :: '/' :: b) = some (a, b) := by
  unfold parseScheme
  rw [takeUntil_append _ a (':' :: '/' :: '/' :: b) (schemeOK_no_colon hok)
    (Or.inr ⟨':', '/' :: '/' :: b, rfl, by decide⟩)]
  simp [hok]

theorem portSpec_inv {pp : List Char} {port : Option String}
    (h : portSpec pp = some port) :
    (pp = [] ∧ port = none) ∨
    (∃ ds, pp = ':' :: ds ∧ ds.all Char.isDigit = true ∧
      ((ds = [] ∧ port = none) ∨ (ds ≠ [] ∧ port = some (String.mk ds)))) := by
  match pp with
  | [] =>
    left
    refine ⟨rfl, ?_⟩
    simpa [portSpec] using h.symm
  | c :: ds =>
    right
    simp only [portSpec] at h
    split at h
    · next hcolon =>
      rw [beq_iff_eq] at hcolon
      subst hcolon
      split at h
      · next hdig =>
        refine ⟨ds, rfl, hdig, ?_⟩
        split at h
        · next hemp =>
          left
          exact ⟨by simpa using hemp, by simpa using h.symm⟩
        · next hemp =>
          right
          exact ⟨by simpa using hemp, by simpa using h.symm⟩
      · exact absurd h (by simp)
    · exact absurd h (by simp)

theorem parseHostPort_inv {authCs hostCs : List Char} {port : Option String}
    (h : parseHostPort authCs = some (hostCs, port)) :
    hostCs ≠ [] ∧ (∀ c ∈ hostCs, (c == ':') = false) ∧
    ∃ pp, authCs = hostCs ++ pp ∧ portSpec pp = some port := by
  unfold parseHostPort at h
  rcases htu : takeUntil (fun c => c == ':') authCs with ⟨hc, pp⟩
  rw [htu] at h
  match hc, h with
  | c :: hrest, h =>
    have h' : (match portSpec pp with
        | none => none
        | some q => some ((c :: hrest : List Char), q)) = some (hostCs, port) := h
    rcases hps : portSpec pp with _ | p
    · rw [hps] at h'
      exact absurd h' (by simp)
    · rw [hps] at h'
      injection h' with h'
      injection h' with h1 h2
      subst h1
      subst h2
      refine ⟨by simp, ?_, pp, ?_, hps⟩
      · intro d hd
        have := takeUntil_fst_false (fun c => c == ':') authCs
        rw [htu] at this
        exact this d hd
      · have := takeUntil_fst_append_snd (fun c => c == ':') authCs
        rw [htu] at this
        exact this.symm

theorem parseHostPort_comp (hc : List Char) (port : Option String) (pp : List Char)
    (hne : hc ≠ []) (hnc : ∀ c ∈ hc, (c == ':') = false)
    (hpp : pp = [] ∨ ∃ ds, pp = ':' :: ds)
    (hps : portSpec pp = some port) :
    parseHostPort (hc ++ pp) = some (hc, port) := by
  unfold parseHostPort
  rw [takeUntil_append _ hc pp hnc (by
    rcases hpp with rfl | ⟨ds, rfl⟩
    · exact Or.inl rfl
    · exact Or.inr ⟨':', ds, rfl, by decide⟩)]
  match hc, hne with
  | c :: hrest, _ => simp [hps]

theorem splitTail_inv {rest3 p s f : List Char} (h : splitTail rest3 = (p, s, f)) :
    (∀ c ∈ p, (c == '?' || c == '#') = false) ∧
    (∃ rest4, rest3 = p ++ rest4) ∧
    (s = [] ∨ ∃ qs, s = '?' :: qs ∧ ∀ c ∈ qs, (c == '#') = false) ∧
    (f = [] ∨ ∃ hs, f = '#' :: hs) := by
  have hff := takeUntil_fst_false (fun c => c == '?' || c == '#') rest3
  have hfa := takeUntil_fst_append_snd (fun c => c == '?' || c == '#') rest3
  have hsh := takeUntil_snd_shape (fun c => c == '?' || c == '#') rest3
  unfold splitTail at h
  rcases htu : takeUntil (fun c => c == '?' || c == '#') rest3 with ⟨pc, rest4⟩
  rw [htu] at h hff hfa hsh
  simp only at hff hfa hsh
  match rest4, h, hsh with
  | [], h, _ =>
    injection h with h1 h
    injection h with h2 h3
    subst h1; subst h2; subst h3
    exact ⟨hff, ⟨[], by simpa using hfa.symm⟩, Or.inl rfl, Or.inl rfl⟩
  | c :: qrest, h, hsh =>
    simp only at h
    split at h
    · next hcq =>
      rw [beq_iff_eq] at hcq
      subst hcq
      injection h with h1 h
      injection h with h2 h3
      subst h1; subst h2; subst h3
      refine ⟨hff, ⟨'?' :: qrest, hfa.symm⟩, ?_, ?_⟩
      · exact Or.inr ⟨_, rfl, takeUntil_fst_false _ qrest⟩
      · rcases takeUntil_snd_shape (fun c => c == '#') qrest with he | ⟨d, rr, heq, hd⟩
        · exact Or.inl he
        · right
          rw [beq_iff_eq] at hd
          subst hd
          exact ⟨rr, heq⟩
    · next hcq =>
      injection h with h1 h
      injection h with h2 h3
      subst h1; subst h2; subst h3
      refine ⟨hff, ⟨c :: qrest, hfa.symm⟩, Or.inl rfl, ?_⟩
      rcases hsh with hemp | ⟨d, rr, heq, hd⟩
      · exact absurd hemp (by simp)
      · injection heq with hde hre
        have hd' : (c == '?' || c == '#') = true := by rw [hde]; exact hd
        have hd2 : (c == '?') = true ∨ (c == '#') = true := by simpa using hd'
        have hdh : (c == '#') = true := by
          rcases hd2 with hq | hh
          · exact absurd hq hcq
          · exact hh
        rw [beq_iff_eq] at hdh
        exact Or.inr ⟨qrest, by rw [hdh]⟩

theorem splitTail_comp (p s f : List Char)
    (hp : ∀ c ∈ p, (c == '?' || c == '#') = false)
    (hs : s = [] ∨ ∃ qs, s = '?' :: qs ∧ ∀ c ∈ qs, (c == '#') = false)
    (hf : f = [] ∨ ∃ hs', f = '#' :: hs') :
    splitTail (p ++ s ++ f) = (p, s, f) := by
  unfold splitTail
  rcases hs with rfl | ⟨qs, rfl, hqs⟩
  · rcases hf with rfl | ⟨hs', rfl⟩
    · have := takeUntil_append (fun c => c == '?' || c == '#') p [] hp (Or.inl rfl)
      rw [List.append_nil] at this
      rw [List.append_nil, List.append_nil, this]
    · have := takeUntil_append (fun c => c == '?' || c == '#') p ('#' :: hs') hp
        (Or.inr ⟨'#', hs', rfl, by decide⟩)
      rw [List.append_nil, this]
      rfl
  · have harr : p ++ '?' :: qs ++ f = p ++ ('?' :: (qs ++ f)) := by simp
    rw [harr, takeUntil_append (fun c => c == '?' || c == '#') p ('?' :: (qs ++ f)) hp
      (Or.inr ⟨'?', qs ++ f, rfl, by decide⟩)]
    show (p, '?' :: (takeUntil (fun c => c == '#') (qs ++ f)).1,
          (takeUntil (fun c => c == '#') (qs ++ f)).2) = (p, '?' :: qs, f)
    rw [takeUntil_append (fun c => c == '#') qs f hqs (by
      rcases hf with rfl | ⟨hs', rfl⟩
      · exact Or.inl rfl
      · exact Or.inr ⟨'#', hs', rfl, by decide⟩)]

/-- Every record URL.parse produces is well-formed. -/
theorem parse_wf {s : String} {r : URLRec} (hs : parseURL s = some r) : URLWF r := by
  unfold parseURL parseURLCs at hs
  rw [Option.bind_eq_some] at hs
  obtain ⟨⟨schemeCs, rest2⟩, hps, hs⟩ := hs
  rw [Option.map_eq_some'] at hs
  obtain ⟨⟨hostCs, port⟩, hhp, hs⟩ := hs
  rcases hsp : splitTail (takeUntil isAuthEnd rest2).2 with ⟨pathCs, searchCs, fragCs⟩
  rw [hsp] at hs
  subst hs
  unfold assembleURL
  obtain ⟨hok, -⟩ := parseScheme_inv hps
  obtain ⟨hhne, hhnc, pp, hauth, hport⟩ := parseHostPort_inv hhp
  obtain ⟨hpf, ⟨rest4, hrest3⟩, hsearch, hfrag⟩ := splitTail_inv hsp
  have hauthf := takeUntil_fst_false isAuthEnd rest2
  have hsnd := takeUntil_snd_shape isAuthEnd rest2
  refine ⟨hok, by simpa using hhne, ?_, ?_, ?_, ?_, ?_, ?_⟩
  · intro c hc
    have hmem : c ∈ (takeUntil isAuthEnd rest2).1 := by
      rw [hauth]
      exact List.mem_append_left _ hc
    have h1 : (c == ':') = false := hhnc c hc
    have h2 : isAuthEnd c = false := hauthf c hmem
    simp [h1, h2]
  · rcases portSpec_inv hport with ⟨-, rfl⟩ | ⟨ds, -, hdig, hcase⟩
    · trivial
    · rcases hcase with ⟨-, rfl⟩ | ⟨hdne, rfl⟩
      · trivial
      · exact ⟨by simpa using hdne, by simpa using List.all_eq_true.mp hdig⟩
  · by_cases hpe : pathCs.isEmpty
    · rw [if_pos hpe]
      exact ⟨[], rfl⟩
    · rw [if_neg (by simpa using hpe)]
      match pathCs, hpe, hpf, hrest3 with
      | c :: pt, _, hpf, hrest3 =>
        have hne : (takeUntil isAuthEnd rest2).2 = c :: (pt ++ rest4) := by
          rw [hrest3]
          rfl
        rcases hsnd with hemp | ⟨d, rr, heq, hd⟩
        · rw [hemp] at hne
          exact absurd hne (by simp)
        · rw [heq] at hne
          injection hne with h1 h2
          subst h1
          have hc2 : (d == '?' || d == '#') = false := hpf d (by simp)
          have hsl : (d == '/') = true := by
            have h3 : (d == '/') = true ∨ (d == '?') = true ∨ (d == '#') = true := by
              simpa [isAuthEnd, or_assoc] using hd
            rcases h3 with h3 | h3 | h3
            · exact h3
            · simp [h3] at hc2
            · simp [h3] at hc2
          rw [beq_iff_eq] at hsl
          subst hsl
          exact ⟨pt, rfl⟩
  · by_cases hpe : pathCs.isEmpty
    · rw [if_pos hpe]
      intro c hc
      simp only [show ("/" : String).data = ['/'] from rfl] at hc
      rcases List.mem_singleton.mp hc with rfl
      decide
    · rw [if_neg (by simpa using hpe)]
      exact hpf
  · exact hsearch
  · exact hfrag

/-- The characters the port contributes to the serialized authority. -/
def portCs (r : URLRec) : List Char :=
  match r.port with
  | none => []
  | some p => ':' :: p.data

theorem hostStr_data (r : URLRec) :
    (hostStr r).data = r.hostname.data ++ portCs r := by
  unfold hostStr portCs
  cases r.port with
  | none => simp [String.data_append]
  | some p =>
    simp [String.data_append]

theorem digit_not_authEnd {c : Char} (h : c.isDigit = true) : isAuthEnd c = false := by
  have h1 := ne_of_pred Char.isDigit h (show Char.isDigit '/' = false by decide)
  have h2 := ne_of_pred Char.isDigit h (show Char.isDigit '?' = false by decide)
  have h3 := ne_of_pred Char.isDigit h (show Char.isDigit '#' = false by decide)
  simp [isAuthEnd, h1, h2, h3]

theorem portSpec_portCs (r : URLRec)
    (hport : match r.port with
      | none => True
      | some p => p.data ≠ [] ∧ ∀ c ∈ p.data, c.isDigit = true) :
    portSpec (portCs r) = some r.port := by
  unfold portCs
  cases hpo : r.port with
  | none => rfl
  | some p =>
    rw [hpo] at hport
    obtain ⟨hne, hdig⟩ := hport
    simp only [portSpec]
    rw [if_pos (show (':' == ':') = true from rfl),
      if_pos (List.all_eq_true.mpr (fun c hc => hdig c hc)),
      if_neg (show ¬(p.data.isEmpty = true) by simpa using hne)]

/-- Printing a well-formed record and parsing it back recovers the
record; this is the WHATWG guarantee that new URL(u).toString()
re-parses to the same URL, for the fragment of the grammar modelled
here. -/
theorem parse_print {r : URLRec} (h : URLWF r) : parseURL (printURL r) = some r := by
  obtain ⟨hok, hhne, hhch, hport, ⟨pt, hpath⟩, hpathch, hsearch, hfrag⟩ := h
  have hdata : (printURL r).data
      = r.scheme.data ++ (':' :: '/' :: '/' ::
        ((r.hostname.data ++ portCs r) ++
          (r.pathname.data ++ (r.search.data ++ r.fragment.data)))) := by
    unfold printURL
    simp [String.data_append, hostStr_data,
      show ("://" : String).data = [':', '/', '/'] from rfl, List.append_assoc]
  have hno : ∀ c ∈ r.hostname.data ++ portCs r, isAuthEnd c = false := by
    intro c hc
    rcases List.mem_append.mp hc with hc | hc
    · have := hhch c hc
      simp only [Bool.or_eq_false_iff] at this
      exact this.2
    · unfold portCs at hc
      cases hpo : r.port with
      | none => rw [hpo] at hc; cases hc
      | some p =>
        rw [hpo] at hc hport
        rcases List.mem_cons.mp hc with rfl | hc
        · decide
        · exact digit_not_authEnd (hport.2 c hc)
  have htu2 : takeUntil isAuthEnd
      ((r.hostname.data ++ portCs r) ++ (r.pathname.data ++ (r.search.data ++ r.fragment.data)))
      = (r.hostname.data ++ portCs r, r.pathname.data ++ (r.search.data ++ r.fragment.data)) := by
    refine takeUntil_append _ _ _ hno (Or.inr ⟨'/', pt ++ (r.search.data ++ r.fragment.data), ?_, by decide⟩)
    rw [hpath]
    rfl
  have hhp : parseHostPort (r.hostname.data ++ portCs r) = some (r.hostname.data, r.port) := by
    refine parseHostPort_comp _ _ _ hhne ?_ ?_ (portSpec_portCs r hport)
    · intro c hc
      have := hhch c hc
      simp only [Bool.or_eq_false_iff] at this
      exact this.1
    · unfold portCs
      cases r.port with
      | none => exact Or.inl rfl
      | some p => exact Or.inr ⟨p.data, rfl⟩
  have hst : splitTail (r.pathname.data ++ (r.search.data ++ r.fragment.data))
      = (r.pathname.data, r.search.data, r.fragment.data) := by
    rw [← List.append_assoc]
    exact splitTail_comp _ _ _ hpathch hsearch hfrag
  unfold parseURL parseURLCs
  rw [hdata, parseScheme_comp hok]
  rw [Option.some_bind]
  simp only
  rw [htu2]
  simp only
  rw [hhp, Option.map_some']
  rw [hst]
  unfold assembleURL
  simp only
  rw [if_neg (by rw [hpath]; simp)]

/-! ## The dedup key determines the hostname -/

/-- In a dedup key, the hostname is everything before the first colon or
slash. -/
def isSep (c : Char) : Bool := c == ':' || c == '/'

theorem sepSplit_inj :
    ∀ (h₁ h₂ s₁ s₂ : List Char),
      (∀ c ∈ h₁, isSep c = false) → (∀ c ∈ h₂, isSep c = false) →
      (s₁ = [] ∨ ∃ c r, s₁ = c :: r ∧ isSep c = true) →
      (s₂ = [] ∨ ∃ c r, s₂ = c :: r ∧ isSep c = true) →
      h₁ ++ s₁ = h₂ ++ s₂ → h₁ = h₂ := by
  intro h₁
  induction h₁ with
  | nil =>
    intro h₂ s₁ s₂ _ hc2 hs1 hs2 heq
    cases h₂ with
    | nil => rfl
    | cons d t =>
      exfalso
      rcases hs1 with rfl | ⟨c, r, rfl, hc⟩
      · exact absurd heq.symm (by simp)
      · simp only [List.nil_append, List.cons_append] at heq
        injection heq with h1 _
        subst h1
        rw [hc2 c (by simp)] at hc
        cases hc
  | cons a t ih =>
    intro h₂ s₁ s₂ hc1 hc2 hs1 hs2 heq
    cases h₂ with
    | nil =>
      exfalso
      rcases hs2 with rfl | ⟨c, r, rfl, hc⟩
      · exact absurd heq (by simp)
      · simp only [List.nil_append, List.cons_append] at heq
        injection heq with h1 _
        rw [← h1] at hc
        rw [hc1 a (by simp)] at hc
        cases hc
    | cons b u =>
      simp only [List.cons_append] at heq
      injection heq with h1 h2
      subst h1
      rw [ih u s₁ s₂ (fun c hc => hc1 c (by simp [hc]))
        (fun c hc => hc2 c (by simp [hc])) hs1 hs2 h2]

theorem strip_append_slash (s : String) : stripTrailingSlash (s ++ "/") = s := by
  unfold stripTrailingSlash endsSlash
  rw [String.data_append, show ("/" : String).data = ['/'] from rfl]
  rw [List.getLast?_concat]
  simp only [if_pos]
  rw [List.dropLast_concat]

theorem strip_no_slash {s : String} (h : endsSlash s = false) :
    stripTrailingSlash s = s := by
  unfold stripTrailingSlash
  rw [if_neg (by simp [h])]

/-- The slash-stripped pathname of a well-formed record is empty or
starts with a slash. -/
theorem strip_shape {s : String} {pt : List Char} (h : s.data = '/' :: pt) :
    (stripTrailingSlash s).data = [] ∨ ∃ t, (stripTrailingSlash s).data = '/' :: t := by
  unfold stripTrailingSlash
  by_cases he : endsSlash s = true
  · rw [if_pos he]
    rw [show (String.mk s.data.dropLast).data = s.data.dropLast from rfl, h]
    cases pt with
    | nil => exact Or.inl rfl
    | cons d u =>
      rw [List.dropLast_cons₂]
      exact Or.inr ⟨(d :: u).dropLast, rfl⟩
  · rw [if_neg he]
    exact Or.inr ⟨pt, h⟩

/-- Two well-formed records with the same dedup key have the same
hostname: the host filter cannot be fooled by the key construction. -/
theorem mkKey_hostname_inj {r₁ r₂ : URLRec} (h₁ : URLWF r₁) (h₂ : URLWF r₂)
    (hk : mkKey r₁ = mkKey r₂) : r₁.hostname = r₂.hostname := by
  obtain ⟨-, -, hch1, hport1, ⟨pt1, hpath1⟩, -, -, -⟩ := h₁
  obtain ⟨-, -, hch2, hport2, ⟨pt2, hpath2⟩, -, -, -⟩ := h₂
  have hdata : (mkKey r₁).data = (mkKey r₂).data := by rw [hk]
  unfold mkKey at hdata
  rw [String.data_append, String.data_append, hostStr_data, hostStr_data,
    List.append_assoc, List.append_assoc] at hdata
  have hsepfree : ∀ (r : URLRec), (∀ c ∈ r.hostname.data, (c == ':' || isAuthEnd c) = false) →
      ∀ c ∈ r.hostname.data, isSep c = false := by
    intro r hch c hc
    have := hch c hc
    simp only [isAuthEnd, Bool.or_eq_false_iff] at this
    simp [isSep, this.1, this.2.1]
  have hshape : ∀ (r : URLRec) (pt : List Char), r.pathname.data = '/' :: pt →
      (match r.port with
        | none => True
        | some p => p.data ≠ [] ∧ ∀ c ∈ p.data, c.isDigit = true) →
      (portCs r ++ (stripTrailingSlash r.pathname).data = [] ∨
        ∃ c rr, portCs r ++ (stripTrailingSlash r.pathname).data = c :: rr ∧ isSep c = true) := by
    intro r pt hpath hport
    unfold portCs
    cases r.port with
    | some p => exact Or.inr ⟨':', p.data ++ (stripTrailingSlash r.pathname).data, rfl, by decide⟩
    | none =>
      simp only [List.nil_append]
      rcases strip_shape hpath with hemp | ⟨t, hslash⟩
      · exact Or.inl hemp
      · exact Or.inr ⟨'/', t, hslash, by decide⟩
  have := sepSplit_inj r₁.hostname.data r₂.hostname.data _ _
    (hsepfree r₁ hch1) (hsepfree r₂ hch2)
    (hshape r₁ pt1 hpath1 hport1) (hshape r₂ pt2 hpath2 hport2) hdata
  exact String.ext this

/-- Evaluating normalizeURL on an input URL.parse accepts. -/
theorem normalize_of_parse {s : String} {r : URLRec} (h : parseURL s = some r) :
    normalizeURL s = .ok (mkKey r) := by
  unfold normalizeURL
  rw [h]

/-! ## The visit ledger

The crawler's this.pages is a JavaScript object used as a map from
normalized URL to visit count; it is modelled as an insertion-ordered
association list. Reading a missing property gives undefined, which is
falsy like the number zero; lookupCount folds both into zero. -/

/-- Models reading this.pages[key] (missing reads as zero). -/
def lookupCount (pages : List (String × Nat)) (k : String) : Nat :=
  match pages.find? (fun kv => kv.1 == k) with
  | some kv => kv.2
  | none => 0

/-- Models the property write this.pages[key] = v: overwrite in place,
append when the key is absent. -/
def setCount : List (String × Nat) → String → Nat → List (String × Nat)
  | [], k, v => [(k, v)]
  | kv :: rest, k, v =>
    if kv.1 == k then (k, v) :: rest else kv :: setCount rest k v

/-- ConcurrentCrawler.addPageVisit: a truthy stored count is incremented
and the call reports false (the page was already visited); otherwise the
count becomes one and the call reports true (first visit). -/
def addPageVisit (pages : List (String × Nat)) (k : String) : Bool × List (String × Nat) :=
  if lookupCount pages k ≠ 0 then
    (false, setCount pages k (lookupCount pages k + 1))
  else
    (true, setCount pages k 1)

theorem lookup_cons_pos {kv : String × Nat} {rest : List (String × Nat)} {k : String}
    (h : (kv.1 == k) = true) : lookupCount (kv :: rest) k = kv.2 := by
  unfold lookupCount
  rw [List.find?_cons_of_pos (p := fun kv' : String × Nat => kv'.1 == k) _ h]

theorem lookup_cons_neg {kv : String × Nat} {rest : List (String × Nat)} {k : String}
    (h : (kv.1 == k) = false) : lookupCount (kv :: rest) k = lookupCount rest k := by
  unfold lookupCount
  rw [List.find?_cons_of_neg (p := fun kv' : String × Nat => kv'.1 == k) _ (by simp [h])]

theorem lookup_set_self (pages : List (String × Nat)) (k : String) (v : Nat) :
    lookupCount (setCount pages k v) k = v := by
  induction pages with
  | nil =>
    rw [show setCount [] k v = [(k, v)] from rfl, lookup_cons_pos (by simp)]
  | cons kv rest ih =>
    by_cases h : (kv.1 == k) = true
    · unfold setCount
      rw [if_pos h, lookup_cons_pos (by simp)]
    · unfold setCount
      rw [if_neg (by simpa using h), lookup_cons_neg (by simpa using h)]
      exact ih

theorem lookup_set_ne (pages : List (String × Nat)) (k k' : String) (v : Nat)
    (h : k' ≠ k) : lookupCount (setCount pages k v) k' = lookupCount pages k' := by
  have hkk : (((k, v) : String × Nat).1 == k') = false := by
    simpa using fun hx => h hx.symm
  induction pages with
  | nil =>
    rw [show setCount [] k v = [(k, v)] from rfl, lookup_cons_neg hkk]
  | cons kv rest ih =>
    by_cases hk : (kv.1 == k) = true
    · unfold setCount
      rw [if_pos hk]
      rw [beq_iff_eq] at hk
      rw [lookup_cons_neg hkk, lookup_cons_neg (by rw [hk]; simpa using fun hx => h hx.symm)]
    · unfold setCount
      rw [if_neg (by simpa using hk)]
      by_cases hkv : (kv.1 == k') = true
      · rw [lookup_cons_pos hkv, lookup_cons_pos hkv]
      · rw [lookup_cons_neg (by simpa using hkv), lookup_cons_neg (by simpa using hkv)]
        exact ih

theorem mem_fst_of_lookup_pos {pages : List (String × Nat)} {k : String}
    (h : 0 < lookupCount pages k) : k ∈ pages.map Prod.fst := by
  unfold lookupCount at h
  cases hf : pages.find? (fun kv => kv.1 == k) with
  | none => rw [hf] at h; cases h
  | some kv =>
    have hmem := List.mem_of_find?_eq_some hf
    have hbeq := List.find?_some hf
    rw [beq_iff_eq] at hbeq
    subst hbeq
    exact List.mem_map.mpr ⟨kv, hmem, rfl⟩

theorem mem_fst_setCount {pages : List (String × Nat)} {k k' : String} {v : Nat} :
    k' ∈ (setCount pages k v).map Prod.fst ↔ k' = k ∨ k' ∈ pages.map Prod.fst := by
  induction pages with
  | nil => simp [setCount]
  | cons kv rest ih =>
    by_cases hk : (kv.1 == k) = true
    · rw [beq_iff_eq] at hk
      subst hk
      simp only [setCount, beq_self_eq_true, if_pos, List.map_cons, List.mem_cons]
      tauto
    · unfold setCount
      rw [if_neg (by simpa using hk)]
      simp only [List.map_cons, List.mem_cons, ih]
      tauto

/-- The set of keys carrying a positive count. -/
def keysF (pages : List (String × Nat)) : Finset String :=
  ((pages.map Prod.fst).toFinset).filter (fun k => 0 < lookupCount pages k)

theorem mem_keysF {pages : List (String × Nat)} {k : String} :
    k ∈ keysF pages ↔ 0 < lookupCount pages k := by
  unfold keysF
  rw [Finset.mem_filter]
  constructor
  · exact fun h => h.2
  · intro h
    exact ⟨List.mem_toFinset.mpr (mem_fst_of_lookup_pos h), h⟩

theorem lookup_addPageVisit_self (pages : List (String × Nat)) (k : String) :
    lookupCount (addPageVisit pages k).2 k = lookupCount pages k + 1 := by
  unfold addPageVisit
  by_cases h : lookupCount pages k ≠ 0
  · rw [if_pos h]
    exact lookup_set_self pages k _
  · rw [if_neg h]
    rw [not_not] at h
    rw [lookup_set_self pages k 1, h]

theorem lookup_addPageVisit_ne (pages : List (String × Nat)) (k k' : String)
    (h : k' ≠ k) : lookupCount (addPageVisit pages k).2 k' = lookupCount pages k' := by
  unfold addPageVisit
  by_cases hz : lookupCount pages k ≠ 0
  · rw [if_pos hz]
    exact lookup_set_ne pages k k' _ h
  · rw [if_neg hz]
    exact lookup_set_ne pages k k' _ h

theorem addPageVisit_fst (pages : List (String × Nat)) (k : String) :
    (addPageVisit pages k).1 = true ↔ lookupCount pages k = 0 := by
  unfold addPageVisit
  by_cases h : lookupCount pages k ≠ 0
  · rw [if_pos h]
    simpa using h
  · rw [if_neg h]
    rw [not_not] at h
    simpa using h

theorem keysF_addPageVisit (pages : List (String × Nat)) (k : String) :
    keysF (addPageVisit pages k).2 = insert k (keysF pages) := by
  ext j
  rw [mem_keysF, Finset.mem_insert, mem_keysF]
  by_cases hj : j = k
  · subst hj
    rw [lookup_addPageVisit_self]
    simp
  · rw [lookup_addPageVisit_ne pages k j hj]
    simp [hj]

theorem mem_fst_addPageVisit {pages : List (String × Nat)} {k j : String} :
    j ∈ ((addPageVisit pages k).2).map Prod.fst ↔ j = k ∨ j ∈ pages.map Prod.fst := by
  unfold addPageVisit
  by_cases h : lookupCount pages k ≠ 0
  · rw [if_pos h]
    exact mem_fst_setCount
  · rw [if_neg h]
    exact mem_fst_setCount

/-! ## The link graph and the fetch boundary -/

/-- One page of the simulated site: the HTTP status, the content-type
header (none when the header is missing) and the href attributes of the
anchor elements in the body. -/
structure SitePage where
  status : Nat
  contentType : Option String
  hrefs : List String
deriving DecidableEq

/-- A finite link graph: fetch responds to the URLs listed here and
throws a network error elsewhere. -/
abbrev Web := List (String × SitePage)

def lookupWeb (web : Web) (url : String) : Option SitePage :=
  match web.find? (fun kv => kv.1 == url) with
  | some kv => some kv.2
  | none => none

def startsWithCs : List Char → List Char → Bool
  | [], _ => true
  | _ :: _, [] => false
  | c :: cs, d :: ds => c == d && startsWithCs cs ds

/-- Substring test on character lists; models String.prototype.includes. -/
def hasSubCs (pat : List Char) : List Char → Bool
  | [] => pat.isEmpty
  | c :: rest => startsWithCs pat (c :: rest) || hasSubCs pat rest

/-- The content-type check of getHTML: contentType.includes of the
text/html type. -/
def htmlCT (ct : String) : Bool := hasSubCs ("text/html".data) ct.data

/-- Models the module-level getHTML of crawl.ts combined with anchor
extraction from its result, at the crawl layer:
- a URL the web does not serve is a network error, getHTML throws;
- a status above 399 returns the empty body, hence no anchors;
- a missing or non-HTML content type returns the empty body, hence no
  anchors;
- otherwise the page body's anchors are available. -/
def getHTMLm (web : Web) (url : String) : Except Unit (List String) :=
  match lookupWeb web url with
  | none => .error ()
  | some p =>
    if 399 < p.status then .ok []
    else
      match p.contentType with
      | none => .ok []
      | some ct => if htmlCT ct then .ok p.hrefs else .ok []

/-- Models new URL(href, baseURL).toString() for an absolute href, as
used by getURLsFromHTML: an unresolvable href is skipped with a logged
diagnostic and does not fail the page. Relative references are outside
the modelled fragment of the WHATWG grammar. -/
def resolveHref (href : String) : Option String := (parseURL href).map printURL

/-- The absolute URLs getURLsFromHTML pushes for the anchors of a page. -/
def hrefURLs (hrefs : List String) : List String := hrefs.filterMap resolveHref

/-- One fetch event of a crawl: the URL handed to fetch and the
normalized key the branch was admitted under. -/
structure FetchEv where
  url : String
  key : String
deriving DecidableEq

/-- The crawler's observable state: the visit ledger this.pages, the
ordered trace of fetches performed, and the number of operations
admitted through the pLimit gate. -/
structure CrawlSt where
  pages : List (String × Nat)
  trace : List FetchEv
  gate : Nat
deriving DecidableEq

def CrawlSt.init : CrawlSt := ⟨[], [], 0⟩

/-- ConcurrentCrawler's private getHTML: the same fetch as the
module-level one, but run through this.limit, so every call registers
one admission at the gate. The source's crawlPage awaits the plain
module-level getHTML, not this method, so no call site below uses it. -/
def gatedGetHTML (web : Web) (url : String) (st : CrawlSt) :
    Except Unit (List String) × CrawlSt :=
  (getHTMLm web url, { st with gate := st.gate + 1 })

mutual

/-- ConcurrentCrawler.crawlPage, with the source's cooperative
scheduling serialized in document order (spec section 5: the admission
step is atomic and the final ledger is deterministic for a fixed link
graph). Steps, in source order: parse the current URL (new URL throws on
an unparsable one, uncaught here), parse this.baseURL, drop the branch
on a hostname mismatch, normalize, run the addPageVisit admission (a
repeat visit ends the branch after its increment), fetch through the
module-level getHTML (a thrown network error is caught and ends the
branch), then recurse on the extracted outgoing links. Fuel is consumed
at every traversal step; a none result means the fuel ran out and is an
artifact of the model, not a behaviour of the source (crawl_dom shows
enough fuel always exists). An Except.error result is a JavaScript
exception propagating out of the call. -/
def crawlPage (web : Web) (baseURL : String) (fuel : Nat) (currentURL : String)
    (st : CrawlSt) : Option (Except Unit CrawlSt) :=
  match fuel with
  | 0 => none
  | fuel' + 1 =>
    match parseURL currentURL with
    | none => some (.error ())
    | some cur =>
      match parseURL baseURL with
      | none => some (.error ())
      | some b =>
        if cur.hostname ≠ b.hostname then some (.ok st)
        else
          match normalizeURL currentURL with
          | .error _ => some (.error ())
          | .ok key =>
            match addPageVisit st.pages key with
            | (isNew, pages') =>
              if isNew = false then some (.ok { st with pages := pages' })
              else
                let st' : CrawlSt := { st with pages := pages',
                                               trace := st.trace ++ [⟨currentURL, key⟩] }
                match getHTMLm web currentURL with
                | .error _ => some (.ok st')
                | .ok hrefs => crawlList web baseURL fuel' (hrefURLs hrefs) st'

/-- The loop spawning and awaiting the crawlPage promises of a page's
outgoing links: Promise.all rejects when any branch rejects, and the
crawl's result promise rejects with it. -/
def crawlList (web : Web) (baseURL : String) (fuel : Nat) (urls : List String)
    (st : CrawlSt) : Option (Except Unit CrawlSt) :=
  match fuel with
  | 0 => none
  | fuel' + 1 =>
    match urls with
    | [] => some (.ok st)
    | u :: rest =>
      match crawlPage web baseURL fuel' u st with
      | none => none
      | some (.error e) => some (.error e)
      | some (.ok st') => crawlList web baseURL fuel' rest st'

end

/-- ConcurrentCrawler.crawl: run crawlPage on the base URL from the
fresh crawler state; the returned promise yields this.pages, or rejects
if the traversal threw. -/
def crawl (web : Web) (baseURL : String) (fuel : Nat) : Option (Except Unit CrawlSt) :=
  crawlPage web baseURL fuel baseURL CrawlSt.init

instance {α β : Type} [DecidableEq α] [DecidableEq β] : DecidableEq (Except α β) := fun a b =>
  match a, b with
  | .error x, .error y =>
    if h : x = y then isTrue (by rw [h])
    else isFalse (by intro hc; injection hc; exact h (by assumption))
  | .ok x, .ok y =>
    if h : x = y then isTrue (by rw [h])
    else isFalse (by intro hc; injection hc; exact h (by assumption))
  | .error _, .ok _ => isFalse (by intro hc; injection hc)
  | .ok _, .error _ => isFalse (by intro hc; injection hc)

/-- The run descriptor of one ConcurrentCrawler instance: the seed URL,
the gate capacity the pLimit gate was constructed with, and the crawl
outcome. -/
structure RunDesc where
  baseURL : String
  gateLimit : Nat
  outcome : Option (Except Unit CrawlSt)
deriving DecidableEq

/-- crawlSiteAsync(baseURL, maxConcurrency): constructs a
ConcurrentCrawler with the given gate capacity (the declared default is
5) and awaits crawl(). -/
def crawlSiteAsync (web : Web) (baseURL : String) (maxConcurrency : Nat) (fuel : Nat) :
    RunDesc :=
  ⟨baseURL, maxConcurrency, crawl web baseURL fuel⟩

/-- index.ts main, after reading baseURL, maxConcurrency and maxPages
from argv: a non-positive maxConcurrency or maxPages exits with an
error; otherwise the crawl starts as crawlSiteAsync(baseURL), passing
neither maxConcurrency nor maxPages along, so the crawler runs with the
default gate capacity of five and no page budget at all. -/
def mainRun (web : Web) (baseURL : String) (maxConcurrency maxPages : Int) (fuel : Nat) :
    Option RunDesc :=
  if maxConcurrency ≤ 0 ∨ maxPages ≤ 0 then none
  else some (crawlSiteAsync web baseURL 5 fuel)

/-! ## The DOM collaborator and page extraction

jsdom is a collaborator: the extraction functions only query the parsed
document. A parse is modelled as a function from HTML text to an
optional document view; none models the constructor throwing, which
every extraction helper catches. -/

/-- The queries the extraction helpers perform on a parsed document:
the text content of the first h1, the first paragraph inside a main
landmark, the first paragraph anywhere, and the href/src attributes of
every anchor/img element in document order (none for a missing
attribute). -/
structure Dom where
  h1Text : Option String
  mainP : Option String
  anyP : Option String
  anchorHrefs : List (Option String)
  imgSrcs : List (Option String)

/-- The parse of the empty document: no elements at all. -/
def emptyDom : Dom := ⟨none, none, none, [], []⟩

/-- Whitespace trimming of text content, on the character list; models
String.prototype.trim for the common whitespace characters. -/
def isWsp (c : Char) : Bool := c == ' ' || c == '\t' || c == '\n' || c == '\r'

def trimStr (s : String) : String :=
  String.mk (((s.data.dropWhile isWsp).reverse.dropWhile isWsp).reverse)

/-- getH1FromHTML: the trimmed text of the first h1, with the empty
string for a missing element or an unparsable document. -/
def getH1FromHTML (parse : String → Option Dom) (html : String) : String :=
  match parse html with
  | none => ""
  | some d => trimStr (d.h1Text.getD "")

/-- getFirstParagraphFromHTML: prefers a paragraph under main (the
nullish coalescing falls through to the document-wide query when main is
absent or holds no paragraph), trimmed, with the empty string fallback. -/
def getFirstParagraphFromHTML (parse : String → Option Dom) (html : String) : String :=
  match parse html with
  | none => ""
  | some d => trimStr ((d.mainP.orElse fun _ => d.anyP).getD "")

/-- getURLsFromHTML: each anchor's href resolved to an absolute URL;
missing hrefs and unresolvable hrefs are skipped; an unparsable document
contributes no URLs. -/
def getURLsFromHTML (parse : String → Option Dom) (html : String) : List String :=
  match parse html with
  | none => []
  | some d => d.anchorHrefs.filterMap (fun h? => h?.bind resolveHref)

/-- getImagesFromHTML: each image's src resolved to an absolute URL,
with the same skipping behaviour. -/
def getImagesFromHTML (parse : String → Option Dom) (html : String) : List String :=
  match parse html with
  | none => []
  | some d => d.imgSrcs.filterMap (fun s? => s?.bind resolveHref)

/-- The record extractPageData returns. -/
structure ExtractedPageData where
  url : String
  h1 : String
  first_paragraph : String
  outgoing_links : List String
  image_urls : List String
deriving DecidableEq

/-- extractPageData: assembles the four extractions for a page. -/
def extractPageData (parse : String → Option Dom) (html : String)
    (pageURL : String) : ExtractedPageData :=
  ⟨pageURL, getH1FromHTML parse html, getFirstParagraphFromHTML parse html,
   getURLsFromHTML parse html, getImagesFromHTML parse html⟩

/-- An HTTP response as the module-level getHTML reads it: status,
content-type header and body text. -/
structure Resp where
  status : Nat
  contentType : Option String
  body : String
deriving DecidableEq

/-- The module-level getHTML of crawl.ts at the response level: a
network failure (no response) is rethrown as an error; a status above
399 logs and returns the empty string; a missing or non-HTML
content type logs and returns the empty string; otherwise the body text
is returned. -/
def getHTML (fetched : Option Resp) : Except Unit String :=
  match fetched with
  | none => .error ()
  | some res =>
    if 399 < res.status then .ok ""
    else
      match res.contentType with
      | none => .ok ""
      | some ct => if htmlCT ct then .ok res.body else .ok ""

/-! ## The CSV report writer -/

/-- Doubling of embedded quotes: String.prototype.replace of every
quote by two quotes. -/
def escQuotes : List Char → List Char
  | [] => []
  | c :: rest =>
    if c = '"' then '"' :: '"' :: escQuotes rest
    else c :: escQuotes rest

/-- Whether the field matches the quoting regexp: it contains a quote,
a comma or a newline. -/
def needsQuoting (s : String) : Bool :=
  s.data.any (fun c => c == '"' || c == ',' || c == '\n')

/-- csvEscape of the report writer: double every embedded quote, and
wrap the field in quotes exactly when the quoting regexp matches. -/
def csvEscape (field : String) : String :=
  let escaped := String.mk (escQuotes field.data)
  if needsQuoting field then "\"" ++ escaped ++ "\"" else escaped

/-! ## Crawl metatheory: candidate universe and one-step evaluation -/

/-- The keys of the trace, in fetch order. -/
def traceKeys (st : CrawlSt) : List String := st.trace.map FetchEv.key

/-- The state after a branch is admitted and its fetch recorded. -/
def stepSt (st : CrawlSt) (url key : String) : CrawlSt :=
  { st with pages := (addPageVisit st.pages key).2,
            trace := st.trace ++ [⟨url, key⟩] }

/-- Every URL a crawl from baseURL over web can hand to crawlPage: the
seed, and every resolved link of every page of the web. -/
def candURLs (web : Web) (baseURL : String) : List String :=
  baseURL :: web.flatMap (fun kv => hrefURLs kv.2.hrefs)

/-- Every dedup key such a crawl can ever admit. -/
def keyUniverse (web : Web) (baseURL : String) : Finset String :=
  ((candURLs web baseURL).filterMap (fun u => (normalizeURL u).toOption)).toFinset

theorem resolveHref_parses {href s : String} (h : resolveHref href = some s) :
    ∃ r, parseURL s = some r := by
  unfold resolveHref at h
  rw [Option.map_eq_some'] at h
  obtain ⟨r0, hp, rfl⟩ := h
  exact ⟨r0, parse_print (parse_wf hp)⟩

theorem hrefURLs_parses {hrefs : List String} {u : String} (h : u ∈ hrefURLs hrefs) :
    ∃ r, parseURL u = some r := by
  unfold hrefURLs at h
  rw [List.mem_filterMap] at h
  obtain ⟨href, -, hres⟩ := h
  exact resolveHref_parses hres

theorem lookupWeb_mem {web : Web} {url : String} {p : SitePage}
    (h : lookupWeb web url = some p) : ∃ kv ∈ web, kv.2 = p := by
  unfold lookupWeb at h
  cases hf : web.find? (fun kv => kv.1 == url) with
  | none => rw [hf] at h; cases h
  | some kv =>
    rw [hf] at h
    injection h with h
    exact ⟨kv, List.mem_of_find?_eq_some hf, h⟩

theorem nexts_sub_cand {web : Web} {baseURL url : String} {p : SitePage}
    (h : lookupWeb web url = some p) :
    ∀ u ∈ hrefURLs p.hrefs, u ∈ candURLs web baseURL := by
  intro u hu
  obtain ⟨kv, hkv, hp⟩ := lookupWeb_mem h
  exact List.mem_cons.mpr (Or.inr (List.mem_flatMap.mpr ⟨kv, hkv, by rw [hp]; exact hu⟩))

theorem getHTMLm_links_sub {web : Web} (baseURL : String) {url : String}
    {hrefs : List String} (h : getHTMLm web url = .ok hrefs) :
    ∀ u ∈ hrefURLs hrefs, u ∈ candURLs web baseURL := by
  unfold getHTMLm at h
  cases hl : lookupWeb web url with
  | none =>
    rw [hl] at h
    exact absurd h (by simp)
  | some p =>
    rw [hl] at h
    have h2 : (if 399 < p.status then (Except.ok [] : Except Unit (List String))
        else match p.contentType with
          | none => .ok []
          | some ct => if htmlCT ct then .ok p.hrefs else .ok []) = .ok hrefs := h
    by_cases hs : 399 < p.status
    · rw [if_pos hs] at h2
      injection h2 with h2
      subst h2
      intro u hu
      cases hu
    · rw [if_neg hs] at h2
      cases hct : p.contentType with
      | none =>
        rw [hct] at h2
        injection h2 with h2
        subst h2
        intro u hu
        cases hu
      | some ct =>
        rw [hct] at h2
        have h3 : (if htmlCT ct then (Except.ok p.hrefs : Except Unit (List String))
            else .ok []) = .ok hrefs := h2
        by_cases hhtml : htmlCT ct = true
        · rw [if_pos hhtml] at h3
          injection h3 with h3
          subst h3
          exact nexts_sub_cand hl
        · rw [if_neg hhtml] at h3
          injection h3 with h3
          subst h3
          intro u hu
          cases hu

theorem key_in_universe {web : Web} {baseURL u k : String}
    (hu : u ∈ candURLs web baseURL) (hk : normalizeURL u = .ok k) :
    k ∈ keyUniverse web baseURL := by
  unfold keyUniverse
  rw [List.mem_toFinset, List.mem_filterMap]
  exact ⟨u, hu, by rw [hk]; rfl⟩

theorem lookup_le_addPageVisit (pages : List (String × Nat)) (key k : String) :
    lookupCount pages k ≤ lookupCount (addPageVisit pages key).2 k := by
  by_cases h : k = key
  · subst h
    rw [lookup_addPageVisit_self]
    omega
  · rw [lookup_addPageVisit_ne pages key k h]

theorem crawlPage_badURL {web : Web} {baseURL : String} {fuel : Nat} {url : String}
    {st : CrawlSt} (h : parseURL url = none) :
    crawlPage web baseURL (fuel + 1) url st = some (.error ()) := by
  simp only [crawlPage]
  rw [h]

theorem crawlPage_badBase {web : Web} {baseURL : String} {fuel : Nat} {url : String}
    {st : CrawlSt} {cur : URLRec} (hc : parseURL url = some cur)
    (hb : parseURL baseURL = none) :
    crawlPage web baseURL (fuel + 1) url st = some (.error ()) := by
  simp only [crawlPage]
  rw [hc, hb]

/-- One admitted evaluation step of crawlPage, with the URL parses
resolved. -/
theorem crawlPage_eval {web : Web} {baseURL : String} {fuel : Nat} {url : String}
    {st : CrawlSt} {cur b : URLRec}
    (hc : parseURL url = some cur) (hb : parseURL baseURL = some b) :
    crawlPage web baseURL (fuel + 1) url st =
      if cur.hostname ≠ b.hostname then some (.ok st)
      else if (addPageVisit st.pages (mkKey cur)).1 = false then
        some (.ok { st with pages := (addPageVisit st.pages (mkKey cur)).2 })
      else
        match getHTMLm web url with
        | .error _ => some (.ok (stepSt st url (mkKey cur)))
        | .ok hrefs =>
          crawlList web baseURL fuel (hrefURLs hrefs) (stepSt st url (mkKey cur)) := by
  simp only [crawlPage]
  rw [hc, hb, normalize_of_parse hc]
  rfl

theorem crawlPage_hostMiss {web : Web} {baseURL : String} {fuel : Nat} {url : String}
    {st : CrawlSt} {cur b : URLRec} (hc : parseURL url = some cur)
    (hb : parseURL baseURL = some b) (hh : cur.hostname ≠ b.hostname) :
    crawlPage web baseURL (fuel + 1) url st = some (.ok st) := by
  rw [crawlPage_eval hc hb, if_pos hh]

theorem crawlPage_seen {web : Web} {baseURL : String} {fuel : Nat} {url : String}
    {st : CrawlSt} {cur b : URLRec} (hc : parseURL url = some cur)
    (hb : parseURL baseURL = some b) (hh : cur.hostname = b.hostname)
    (hseen : (addPageVisit st.pages (mkKey cur)).1 = false) :
    crawlPage web baseURL (fuel + 1) url st =
      some (.ok { st with pages := (addPageVisit st.pages (mkKey cur)).2 }) := by
  rw [crawlPage_eval hc hb, if_neg (by simp [hh]), if_pos hseen]

theorem crawlPage_fetchFail {web : Web} {baseURL : String} {fuel : Nat} {url : String}
    {st : CrawlSt} {cur b : URLRec} (hc : parseURL url = some cur)
    (hb : parseURL baseURL = some b) (hh : cur.hostname = b.hostname)
    (hnew : (addPageVisit st.pages (mkKey cur)).1 = true)
    (hget : getHTMLm web url = .error ()) :
    crawlPage web baseURL (fuel + 1) url st = some (.ok (stepSt st url (mkKey cur))) := by
  rw [crawlPage_eval hc hb, if_neg (by simp [hh]), if_neg (by simp [hnew]), hget]

theorem crawlPage_fetch {web : Web} {baseURL : String} {fuel : Nat} {url : String}
    {st : CrawlSt} {cur b : URLRec} {hrefs : List String}
    (hc : parseURL url = some cur) (hb : parseURL baseURL = some b)
    (hh : cur.hostname = b.hostname)
    (hnew : (addPageVisit st.pages (mkKey cur)).1 = true)
    (hget : getHTMLm web url = .ok hrefs) :
    crawlPage web baseURL (fuel + 1) url st =
      crawlList web baseURL fuel (hrefURLs hrefs) (stepSt st url (mkKey cur)) := by
  rw [crawlPage_eval hc hb, if_neg (by simp [hh]), if_neg (by simp [hnew]), hget]

theorem crawlList_nil {web : Web} {baseURL : String} {fuel : Nat} {st : CrawlSt} :
    crawlList web baseURL (fuel + 1) [] st = some (.ok st) := rfl

theorem crawlList_cons {web : Web} {baseURL : String} {fuel : Nat} {u : String}
    {rest : List String} {st : CrawlSt} :
    crawlList web baseURL (fuel + 1) (u :: rest) st =
      match crawlPage web baseURL fuel u st with
      | none => none
      | some (.error e) => some (.error e)
      | some (.ok st') => crawlList web baseURL fuel rest st' := rfl

/-- Results are stable under extra fuel: fuel only cuts runs short,
it never changes a completed run. -/
theorem crawl_fuel_succ (web : Web) (baseURL : String) :
    ∀ fuel : Nat,
      (∀ url st out, crawlPage web baseURL fuel url st = some out →
        crawlPage web baseURL (fuel + 1) url st = some out) ∧
      (∀ urls st out, crawlList web baseURL fuel urls st = some out →
        crawlList web baseURL (fuel + 1) urls st = some out) := by
  intro fuel
  induction fuel with
  | zero =>
    constructor
    · intro url st out h
      exact absurd h (by simp [crawlPage])
    · intro urls st out h
      exact absurd h (by simp [crawlList])
  | succ fuel ih =>
    obtain ⟨ihp, ihl⟩ := ih
    constructor
    · intro url st out h
      rcases hc : parseURL url with _ | cur
      · rw [crawlPage_badURL hc] at h ⊢
        exact h
      rcases hb2 : parseURL baseURL with _ | b
      · rw [crawlPage_badBase hc hb2] at h ⊢
        exact h
      by_cases hh : cur.hostname ≠ b.hostname
      · rw [crawlPage_hostMiss hc hb2 hh] at h ⊢
        exact h
      rw [not_not] at hh
      by_cases hseen : (addPageVisit st.pages (mkKey cur)).1 = false
      · rw [crawlPage_seen hc hb2 hh hseen] at h ⊢
        exact h
      have hnew : (addPageVisit st.pages (mkKey cur)).1 = true := by
        revert hseen
        cases (addPageVisit st.pages (mkKey cur)).1 <;> simp
      cases hget : getHTMLm web url with
      | error e =>
        cases e
        rw [crawlPage_fetchFail hc hb2 hh hnew hget] at h ⊢
        exact h
      | ok hrefs =>
        rw [crawlPage_fetch hc hb2 hh hnew hget] at h ⊢
        exact ihl _ _ _ h
    · intro urls st out h
      match urls with
      | [] =>
        rw [crawlList_nil] at h ⊢
        exact h
      | u :: rest =>
        rw [crawlList_cons] at h ⊢
        cases hpage : crawlPage web baseURL fuel u st with
        | none =>
          rw [hpage] at h
          exact absurd h (by simp)
        | some res =>
          rw [hpage] at h
          rw [ihp _ _ _ hpage]
          cases res with
          | error e => exact h
          | ok st1 =>
            have h2 : crawlList web baseURL fuel rest st1 = some out := h
            show crawlList web baseURL (fuel + 1) rest st1 = some out
            exact ihl _ _ _ h2

theorem crawl_fuel_le_page {web : Web} {baseURL : String} {f1 f2 : Nat}
    (hle : f1 ≤ f2) {url : String} {st : CrawlSt} {out : Except Unit CrawlSt}
    (h : crawlPage web baseURL f1 url st = some out) :
    crawlPage web baseURL f2 url st = some out := by
  induction hle with
  | refl => exact h
  | step h2 ih =>
    exact (crawl_fuel_succ web baseURL _).1 _ _ _ ih

theorem crawl_fuel_le_list {web : Web} {baseURL : String} {f1 f2 : Nat}
    (hle : f1 ≤ f2) {urls : List String} {st : CrawlSt} {out : Except Unit CrawlSt}
    (h : crawlList web baseURL f1 urls st = some out) :
    crawlList web baseURL f2 urls st = some out := by
  induction hle with
  | refl => exact h
  | step h2 ih =>
    exact (crawl_fuel_succ web baseURL _).2 _ _ _ ih

/-- Along a completed traversal the ledger only grows: no count is ever
decremented and no key is ever removed. -/
theorem crawl_count_mono (web : Web) (baseURL : String) :
    ∀ fuel : Nat,
      (∀ url st out, crawlPage web baseURL fuel url st = some (.ok out) →
        ∀ k, lookupCount st.pages k ≤ lookupCount out.pages k) ∧
      (∀ urls st out, crawlList web baseURL fuel urls st = some (.ok out) →
        ∀ k, lookupCount st.pages k ≤ lookupCount out.pages k) := by
  intro fuel
  induction fuel with
  | zero =>
    constructor
    · intro url st out h
      exact absurd h (by simp [crawlPage])
    · intro urls st out h
      exact absurd h (by simp [crawlList])
  | succ fuel ih =>
    obtain ⟨ihp, ihl⟩ := ih
    constructor
    · intro url st out h k
      rcases hc : parseURL url with _ | cur
      · rw [crawlPage_badURL hc] at h
        exact absurd h (by simp)
      rcases hb2 : parseURL baseURL with _ | b
      · rw [crawlPage_badBase hc hb2] at h
        exact absurd h (by simp)
      by_cases hh : cur.hostname ≠ b.hostname
      · rw [crawlPage_hostMiss hc hb2 hh] at h
        injection h with h
        injection h with h
        subst h
        exact le_refl _
      rw [not_not] at hh
      by_cases hseen : (addPageVisit st.pages (mkKey cur)).1 = false
      · rw [crawlPage_seen hc hb2 hh hseen] at h
        injection h with h
        injection h with h
        subst h
        exact lookup_le_addPageVisit st.pages (mkKey cur) k
      have hnew : (addPageVisit st.pages (mkKey cur)).1 = true := by
        revert hseen
        cases (addPageVisit st.pages (mkKey cur)).1 <;> simp
      cases hget : getHTMLm web url with
      | error e =>
        cases e
        rw [crawlPage_fetchFail hc hb2 hh hnew hget] at h
        injection h with h
        injection h with h
        subst h
        exact lookup_le_addPageVisit st.pages (mkKey cur) k
      | ok hrefs =>
        rw [crawlPage_fetch hc hb2 hh hnew hget] at h
        exact le_trans (lookup_le_addPageVisit st.pages (mkKey cur) k) (ihl _ _ _ h k)
    · intro urls st out h k
      match urls with
      | [] =>
        rw [crawlList_nil] at h
        injection h with h
        injection h with h
        subst h
        exact le_refl _
      | u :: rest =>
        rw [crawlList_cons] at h
        cases hpage : crawlPage web baseURL fuel u st with
        | none =>
          rw [hpage] at h
          exact absurd h (by simp)
        | some res =>
          rw [hpage] at h
          cases res with
          | error e =>
            have h2 : some (Except.error e) = some (Except.ok out) := h
            exact absurd h2 (by simp)
          | ok st1 =>
            have h2 : crawlList web baseURL fuel rest st1 = some (.ok out) := h
            exact le_trans (ihp _ _ _ hpage k) (ihl _ _ _ h2 k)

theorem keysF_subset_of_counts {p q : List (String × Nat)}
    (h : ∀ k, lookupCount p k ≤ lookupCount q k) : keysF p ⊆ keysF q := by
  intro k hk
  rw [mem_keysF] at hk ⊢
  exact lt_of_lt_of_le hk (h k)

theorem sdiff_card_mono {K F G : Finset String} (h : F ⊆ G) :
    (K \ G).card ≤ (K \ F).card :=
  Finset.card_le_card (Finset.sdiff_subset_sdiff (Finset.Subset.refl K) h)

theorem sdiff_card_insert_lt {K F : Finset String} {k : String}
    (hK : k ∈ K) (hF : k ∉ F) :
    (K \ insert k F).card < (K \ F).card := by
  apply Finset.card_lt_card
  rw [Finset.ssubset_iff_of_subset
    (Finset.sdiff_subset_sdiff (Finset.Subset.refl K) (Finset.subset_insert k F))]
  exact ⟨k, Finset.mem_sdiff.mpr ⟨hK, hF⟩, by simp⟩

/-- Termination of the traversal: from any state, enough fuel makes the
crawl of any candidate URL complete, with the number of universe keys not
yet carrying a visit as the decreasing measure. -/
theorem crawl_dom (web : Web) (baseURL : String) :
    ∀ n : Nat, ∀ st : CrawlSt,
      ((keyUniverse web baseURL) \ keysF st.pages).card ≤ n →
      (∀ url ∈ candURLs web baseURL,
        ∃ fuel out, crawlPage web baseURL fuel url st = some out) ∧
      (∀ urls, (∀ u ∈ urls, u ∈ candURLs web baseURL) →
        ∃ fuel out, crawlList web baseURL fuel urls st = some out) := by
  intro n
  induction n using Nat.strong_induction_on with
  | _ n IH =>
  have hpage : ∀ st : CrawlSt,
      ((keyUniverse web baseURL) \ keysF st.pages).card ≤ n →
      ∀ url ∈ candURLs web baseURL,
      ∃ fuel out, crawlPage web baseURL fuel url st = some out := by
    intro st hcard url hurl
    rcases hc : parseURL url with _ | cur
    · exact ⟨1, .error (), crawlPage_badURL hc⟩
    rcases hb2 : parseURL baseURL with _ | b
    · exact ⟨1, .error (), crawlPage_badBase hc hb2⟩
    by_cases hh : cur.hostname ≠ b.hostname
    · exact ⟨1, .ok st, crawlPage_hostMiss hc hb2 hh⟩
    rw [not_not] at hh
    by_cases hseen : (addPageVisit st.pages (mkKey cur)).1 = false
    · exact ⟨1, _, crawlPage_seen hc hb2 hh hseen⟩
    have hnew : (addPageVisit st.pages (mkKey cur)).1 = true := by
      revert hseen
      cases (addPageVisit st.pages (mkKey cur)).1 <;> simp
    cases hget : getHTMLm web url with
    | error e =>
      cases e
      exact ⟨1, _, crawlPage_fetchFail hc hb2 hh hnew hget⟩
    | ok hrefs =>
      have hkey : mkKey cur ∈ keyUniverse web baseURL :=
        key_in_universe hurl (normalize_of_parse hc)
      have hnotin : mkKey cur ∉ keysF st.pages := by
        rw [mem_keysF]
        rw [addPageVisit_fst] at hnew
        omega
      have hstep : keysF (stepSt st url (mkKey cur)).pages
          = insert (mkKey cur) (keysF st.pages) := by
        unfold stepSt
        exact keysF_addPageVisit st.pages (mkKey cur)
      have hlt : ((keyUniverse web baseURL) \ keysF (stepSt st url (mkKey cur)).pages).card < n := by
        rw [hstep]
        exact lt_of_lt_of_le (sdiff_card_insert_lt hkey hnotin) hcard
      obtain ⟨-, hlist⟩ := IH _ hlt (stepSt st url (mkKey cur)) (le_refl _)
      obtain ⟨fuel, out, hl⟩ := hlist (hrefURLs hrefs) (getHTMLm_links_sub baseURL hget)
      refine ⟨fuel + 1, out, ?_⟩
      rw [crawlPage_fetch hc hb2 hh hnew hget]
      exact hl
  have hlist : ∀ urls, (∀ u ∈ urls, u ∈ candURLs web baseURL) →
      ∀ st : CrawlSt, ((keyUniverse web baseURL) \ keysF st.pages).card ≤ n →
      ∃ fuel out, crawlList web baseURL fuel urls st = some out := by
    intro urls
    induction urls with
    | nil =>
      intro _ st _
      exact ⟨1, .ok st, crawlList_nil⟩
    | cons u rest ihrest =>
      intro hsub st hcard
      obtain ⟨f1, out1, h1⟩ := hpage st hcard u (hsub u (by simp))
      cases out1 with
      | error e =>
        cases e
        refine ⟨f1 + 1, .error (), ?_⟩
        rw [crawlList_cons, h1]
      | ok st1 =>
        have hcard1 : ((keyUniverse web baseURL) \ keysF st1.pages).card ≤ n :=
          le_trans (sdiff_card_mono (keysF_subset_of_counts
            (fun k => (crawl_count_mono web baseURL f1).1 _ _ _ h1 k))) hcard
        obtain ⟨f2, out2, h2⟩ := ihrest (fun v hv => hsub v (by simp [hv])) st1 hcard1
        refine ⟨max f1 f2 + 1, out2, ?_⟩
        rw [crawlList_cons, crawl_fuel_le_page (le_max_left f1 f2) h1]
        exact crawl_fuel_le_list (le_max_right f1 f2) h2
  exact fun st h => ⟨fun url hurl => hpage st h url hurl, fun urls hsub => hlist urls hsub st h⟩

/-- The state invariant every crawl from a seed parsing to rb keeps:
every ledger key is the dedup key of a well-formed URL on the seed's
host, every fetched URL parses to the seed's host and its key carries a
positive count, and no key is fetched twice. -/
def StInv (rb : URLRec) (st : CrawlSt) : Prop :=
  (∀ k ∈ st.pages.map Prod.fst, ∃ r, URLWF r ∧ r.hostname = rb.hostname ∧ k = mkKey r) ∧
  (∀ ev ∈ st.trace, (∃ r, parseURL ev.url = some r ∧ r.hostname = rb.hostname) ∧
    0 < lookupCount st.pages ev.key) ∧
  (traceKeys st).Nodup

theorem traceKeys_stepSt (st : CrawlSt) (url key : String) :
    traceKeys (stepSt st url key) = traceKeys st ++ [key] := by
  unfold traceKeys stepSt
  simp

/-- Preservation of the state invariant along completed traversals. -/
theorem crawl_inv (web : Web) (baseURL : String) (rb : URLRec)
    (hbase : parseURL baseURL = some rb) :
    ∀ fuel : Nat,
      (∀ url st out, StInv rb st → crawlPage web baseURL fuel url st = some (.ok out) →
        StInv rb out) ∧
      (∀ urls st out, StInv rb st → crawlList web baseURL fuel urls st = some (.ok out) →
        StInv rb out) := by
  intro fuel
  induction fuel with
  | zero =>
    constructor
    · intro url st out _ h
      exact absurd h (by simp [crawlPage])
    · intro urls st out _ h
      exact absurd h (by simp [crawlList])
  | succ fuel ih =>
    obtain ⟨ihp, ihl⟩ := ih
    have hadm : ∀ st : CrawlSt, ∀ (cur : URLRec) (url : String), StInv rb st →
        parseURL url = some cur → cur.hostname = rb.hostname →
        (addPageVisit st.pages (mkKey cur)).1 = true →
        StInv rb (stepSt st url (mkKey cur)) := by
      intro st cur url hinv hc hh hnew
      obtain ⟨hkeys, htr, hnd⟩ := hinv
      have hzero : lookupCount st.pages (mkKey cur) = 0 := (addPageVisit_fst _ _).mp hnew
      refine ⟨?_, ?_, ?_⟩
      · intro j hj
        unfold stepSt at hj
        simp only at hj
        rcases mem_fst_addPageVisit.mp hj with rfl | hj
        · exact ⟨cur, parse_wf hc, hh, rfl⟩
        · exact hkeys j hj
      · intro ev hev
        unfold stepSt at hev
        simp only at hev
        rcases List.mem_append.mp hev with hev | hev
        · obtain ⟨hr, hcount⟩ := htr ev hev
          refine ⟨hr, lt_of_lt_of_le hcount ?_⟩
          unfold stepSt
          exact lookup_le_addPageVisit st.pages (mkKey cur) ev.key
        · rcases List.mem_singleton.mp hev with rfl
          refine ⟨⟨cur, hc, hh⟩, ?_⟩
          unfold stepSt
          simp only
          rw [lookup_addPageVisit_self]
          omega
      · rw [traceKeys_stepSt, List.nodup_append]
        refine ⟨hnd, List.nodup_singleton _, ?_⟩
        intro k hk hk2
        rcases List.mem_singleton.mp hk2 with rfl
        unfold traceKeys at hk
        rw [List.mem_map] at hk
        obtain ⟨ev, hev, hevk⟩ := hk
        have := (htr ev hev).2
        rw [hevk] at this
        omega
    constructor
    · intro url st out hinv h
      rcases hc : parseURL url with _ | cur
      · rw [crawlPage_badURL hc] at h
        exact absurd h (by simp)
      have hb2 : parseURL baseURL = some rb := hbase
      by_cases hh : cur.hostname ≠ rb.hostname
      · rw [crawlPage_hostMiss hc hb2 hh] at h
        injection h with h
        injection h with h
        subst h
        exact hinv
      rw [not_not] at hh
      by_cases hseen : (addPageVisit st.pages (mkKey cur)).1 = false
      · rw [crawlPage_seen hc hb2 hh hseen] at h
        injection h with h
        injection h with h
        subst h
        obtain ⟨hkeys, htr, hnd⟩ := hinv
        have hpos : 0 < lookupCount st.pages (mkKey cur) := by
          have := (addPageVisit_fst st.pages (mkKey cur))
          rcases Nat.eq_zero_or_pos (lookupCount st.pages (mkKey cur)) with hz | hp
          · rw [this.mpr hz] at hseen
            cases hseen
          · exact hp
        refine ⟨?_, ?_, hnd⟩
        · intro j hj
          simp only at hj
          rcases mem_fst_addPageVisit.mp hj with rfl | hj
          · exact hkeys _ (mem_fst_of_lookup_pos hpos)
          · exact hkeys j hj
        · intro ev hev
          simp only at hev
          obtain ⟨hr, hcount⟩ := htr ev hev
          exact ⟨hr, lt_of_lt_of_le hcount (lookup_le_addPageVisit st.pages (mkKey cur) ev.key)⟩
      have hnew : (addPageVisit st.pages (mkKey cur)).1 = true := by
        revert hseen
        cases (addPageVisit st.pages (mkKey cur)).1 <;> simp
      cases hget : getHTMLm web url with
      | error e =>
        cases e
        rw [crawlPage_fetchFail hc hb2 hh hnew hget] at h
        injection h with h
        injection h with h
        subst h
        exact hadm st cur url hinv hc hh hnew
      | ok hrefs =>
        rw [crawlPage_fetch hc hb2 hh hnew hget] at h
        exact ihl _ _ _ (hadm st cur url hinv hc hh hnew) h
    · intro urls st out hinv h
      match urls with
      | [] =>
        rw [crawlList_nil] at h
        injection h with h
        injection h with h
        subst h
        exact hinv
      | u :: rest =>
        rw [crawlList_cons] at h
        cases hpage : crawlPage web baseURL fuel u st with
        | none =>
          rw [hpage] at h
          exact absurd h (by simp)
        | some res =>
          rw [hpage] at h
          cases res with
          | error e =>
            have h2 : some (Except.error e) = some (Except.ok out) := h
            exact absurd h2 (by simp)
          | ok st1 =>
            have h2 : crawlList web baseURL fuel rest st1 = some (.ok out) := h
            exact ihl _ _ _ (ihp _ _ _ hinv hpage) h2

/-- A traversal over parseable URLs never rejects: the only JavaScript
exception crawlPage can propagate comes from new URL on an unparsable
string, and every URL getURLsFromHTML produces re-parses. -/
theorem crawl_noerror (web : Web) (baseURL : String)
    (hbase : (parseURL baseURL).isSome = true) :
    ∀ fuel : Nat,
      (∀ url st, (parseURL url).isSome = true →
        crawlPage web baseURL fuel url st ≠ some (.error ())) ∧
      (∀ urls st, (∀ u ∈ urls, (parseURL u).isSome = true) →
        crawlList web baseURL fuel urls st ≠ some (.error ())) := by
  intro fuel
  induction fuel with
  | zero =>
    constructor
    · intro url st _ h
      exact absurd h (by simp [crawlPage])
    · intro urls st _ h
      exact absurd h (by simp [crawlList])
  | succ fuel ih =>
    obtain ⟨ihp, ihl⟩ := ih
    constructor
    · intro url st hurl h
      rcases hc : parseURL url with _ | cur
      · rw [hc] at hurl
        cases hurl
      rcases hb2 : parseURL baseURL with _ | b
      · rw [hb2] at hbase
        cases hbase
      by_cases hh : cur.hostname ≠ b.hostname
      · rw [crawlPage_hostMiss hc hb2 hh] at h
        exact absurd h (by simp)
      rw [not_not] at hh
      by_cases hseen : (addPageVisit st.pages (mkKey cur)).1 = false
      · rw [crawlPage_seen hc hb2 hh hseen] at h
        exact absurd h (by simp)
      have hnew : (addPageVisit st.pages (mkKey cur)).1 = true := by
        revert hseen
        cases (addPageVisit st.pages (mkKey cur)).1 <;> simp
      cases hget : getHTMLm web url with
      | error e =>
        cases e
        rw [crawlPage_fetchFail hc hb2 hh hnew hget] at h
        exact absurd h (by simp)
      | ok hrefs =>
        rw [crawlPage_fetch hc hb2 hh hnew hget] at h
        refine ihl _ _ ?_ h
        intro u hu
        obtain ⟨r, hr⟩ := hrefURLs_parses hu
        rw [hr]
        rfl
    · intro urls st hsub h
      match urls with
      | [] =>
        rw [crawlList_nil] at h
        exact absurd h (by simp)
      | u :: rest =>
        rw [crawlList_cons] at h
        cases hpage : crawlPage web baseURL fuel u st with
        | none =>
          rw [hpage] at h
          exact absurd h (by simp)
        | some res =>
          rw [hpage] at h
          cases res with
          | error e =>
            cases e
            exact ihp u st (hsub u (by simp)) hpage
          | ok st1 =>
            have h2 : crawlList web baseURL fuel rest st1 = some (.error ()) := h
            exact ihl rest st1 (fun v hv => hsub v (by simp [hv])) h2

/-! ## Concrete link graphs used for the claim instances -/

/-- A two-page site: the root links to one further page. -/
def web1 : Web :=
  [("http://a.com/", ⟨200, some "text/html", ["http://a.com/b"]⟩),
   ("http://a.com/b", ⟨200, some "text/html", []⟩)]

/-- A three-page site with a cycle and two routes to the third page. -/
def web3 : Web :=
  [("http://a.com/", ⟨200, some "text/html", ["http://a.com/b", "http://a.com/c"]⟩),
   ("http://a.com/b", ⟨200, some "text/html", ["http://a.com/", "http://a.com/c"]⟩),
   ("http://a.com/c", ⟨200, some "text/html", []⟩)]

/-- A site whose root links to a foreign host and to one same-host page. -/
def webF : Web :=
  [("http://a.com/", ⟨200, some "text/html", ["http://other.com/x", "http://a.com/b"]⟩),
   ("http://a.com/b", ⟨200, some "text/html", []⟩)]

/-- A site whose root links to a page answering 500 (which itself links
onward) and to a healthy sibling page. -/
def webR : Web :=
  [("http://a.com/", ⟨200, some "text/html", ["http://a.com/bad", "http://a.com/good"]⟩),
   ("http://a.com/bad", ⟨500, some "text/html", ["http://a.com/x"]⟩),
   ("http://a.com/good", ⟨200, some "text/html", []⟩)]

theorem stInv_init (rb : URLRec) : StInv rb CrawlSt.init := by
  refine ⟨?_, ?_, ?_⟩
  · intro k hk
    cases hk
  · intro ev hev
    cases hev
  · exact List.nodup_nil

/-- The number of distinct keys in the ledger of a completed run. -/
def distinctKeyCount (d : Option RunDesc) : Nat :=
  match d with
  | some desc =>
    match desc.outcome with
    | some (.ok st) => (st.pages.map Prod.fst).eraseDups.length
    | _ => 0
  | none => 0

/-! ## The claims -/

/-- C1: the claim asserts that a crawl configured with maxPages = k
yields at most k distinct keys. The code accepts and validates the
maxPages CLI argument but never passes it on: on a three-page site, the
CLI invocation with maxPages = 2 produces a ledger with three distinct
keys, exceeding the budget the claim promises. -/
theorem c1_maxPages_ignored :
    mainRun web3 "http://a.com/" 9 2 30 ≠ none ∧
    distinctKeyCount (mainRun web3 "http://a.com/" 9 2 30) = 3 := by
  constructor
  · decide
  · decide

/-- C2: the claim asserts that every fetch issued by the traversal
passes through the bounded pLimit gate. In the code crawlPage awaits the
module-level getHTML, not the private gated this.getHTML, so a crawl
that performs two fetches registers zero admissions at the gate — while
the gated private getHTML, had it been called, would have registered one
admission per fetch. -/
theorem c2_gate_bypassed :
    (∃ st : CrawlSt, crawl web1 "http://a.com/" 10 = some (.ok st) ∧
      st.trace.length = 2 ∧ st.gate = 0) ∧
    (∀ (w : Web) (url : String) (st : CrawlSt),
      (gatedGetHTML w url st).2.gate = st.gate + 1) := by
  constructor
  · refine ⟨⟨[("a.com", 1), ("a.com/b", 1)],
      [⟨"http://a.com/", "a.com"⟩, ⟨"http://a.com/b", "a.com/b"⟩], 0⟩, ?_, rfl, rfl⟩
    decide
  · intro w url st
    rfl

/-- C3 counterexample: the claim asserts that crawl() always completes
normally for every input and never propagates an error to its caller.
An unparsable seed URL makes the first new URL call throw and the
returned promise rejects. -/
theorem c3_counterexample : crawl web1 "not a url" 3 = some (.error ()) := by
  decide

/-- C3 as amended: when the seed URL parses, no error is fatal: every
failure is scoped to its branch, no fuel makes the crawl reject, and
enough fuel completes it normally with the final ledger. -/
theorem c3_no_fatal_errors (web : Web) (baseURL : String) (rb : URLRec)
    (hb : parseURL baseURL = some rb) :
    (∀ fuel, crawl web baseURL fuel ≠ some (.error ())) ∧
    (∃ fuel st, crawl web baseURL fuel = some (.ok st)) := by
  have hsome : (parseURL baseURL).isSome = true := by
    rw [hb]
    rfl
  constructor
  · intro fuel
    unfold crawl
    exact (crawl_noerror web baseURL hsome fuel).1 baseURL CrawlSt.init hsome
  · obtain ⟨hpage, -⟩ := crawl_dom web baseURL
      ((keyUniverse web baseURL) \ keysF CrawlSt.init.pages).card CrawlSt.init (le_refl _)
    obtain ⟨fuel, out, hout⟩ := hpage baseURL (List.mem_cons_self _ _)
    cases out with
    | error e =>
      cases e
      exact absurd hout ((crawl_noerror web baseURL hsome fuel).1 baseURL CrawlSt.init hsome)
    | ok st =>
      exact ⟨fuel, st, hout⟩

theorem c3_no_fatal_errors_witness :
    crawl web1 "http://a.com/" 4 ≠ some (.error ()) :=
  (c3_no_fatal_errors web1 "http://a.com/" ⟨"http", "a.com", none, "/", "", ""⟩ (by decide)).1 4

/-- C4: for every finite link graph, cycles included, the crawl
terminates (some fuel completes the run), and on every completed run
each distinct normalized URL is fetched at most once: the trace of
fetched keys carries no duplicate. -/
theorem c4_terminates_and_dedup (web : Web) (baseURL : String) :
    (∃ fuel out, crawl web baseURL fuel = some out) ∧
    (∀ fuel st, crawl web baseURL fuel = some (.ok st) → (traceKeys st).Nodup) := by
  constructor
  · obtain ⟨hpage, -⟩ := crawl_dom web baseURL
      ((keyUniverse web baseURL) \ keysF CrawlSt.init.pages).card CrawlSt.init (le_refl _)
    exact hpage baseURL (List.mem_cons_self _ _)
  · intro fuel st h
    unfold crawl at h
    rcases hb : parseURL baseURL with _ | rb
    · match fuel, h with
      | 0, h => exact absurd h (by simp [crawlPage])
      | fuel + 1, h =>
        rw [crawlPage_badURL hb] at h
        exact absurd h (by simp)
    · exact ((crawl_inv web baseURL rb hb fuel).1 baseURL CrawlSt.init st
        (stInv_init rb) h).2.2

theorem c4_terminates_and_dedup_witness :
    (traceKeys (⟨[("a.com", 1), ("a.com/b", 1)],
      [⟨"http://a.com/", "a.com"⟩, ⟨"http://a.com/b", "a.com/b"⟩], 0⟩ : CrawlSt)).Nodup :=
  (c4_terminates_and_dedup web1 "http://a.com/").2 10
    ⟨[("a.com", 1), ("a.com/b", 1)],
      [⟨"http://a.com/", "a.com"⟩, ⟨"http://a.com/b", "a.com/b"⟩], 0⟩ (by decide)

/-- C5: a candidate URL whose hostname differs from the seed's is never
fetched (its URL never appears in the fetch trace), no visit is recorded
for it, and its normalized key never appears among the keys of the
returned visit-count mapping. -/
theorem c5_host_filter (web : Web) (baseURL cand : String) (rb rc : URLRec)
    (hb : parseURL baseURL = some rb) (hc : parseURL cand = some rc)
    (hne : rc.hostname ≠ rb.hostname) (fuel : Nat) (st : CrawlSt)
    (hrun : crawl web baseURL fuel = some (.ok st)) :
    (∀ ev ∈ st.trace, ev.url ≠ cand) ∧
    (∀ k, normalizeURL cand = .ok k → k ∉ st.pages.map Prod.fst) := by
  unfold crawl at hrun
  obtain ⟨hkeys, htr, -⟩ :=
    (crawl_inv web baseURL rb hb fuel).1 baseURL CrawlSt.init st (stInv_init rb) hrun
  constructor
  · intro ev hev heq
    obtain ⟨⟨r, hr, hrhost⟩, -⟩ := htr ev hev
    rw [heq, hc] at hr
    injection hr with hr
    subst hr
    exact hne hrhost
  · intro k hk hmem
    obtain ⟨r, hwf, hrhost, hkey⟩ := hkeys k hmem
    have hkc : k = mkKey rc := by
      rw [normalize_of_parse hc] at hk
      injection hk with hk
      exact hk.symm
    have hinj : rc.hostname = r.hostname :=
      mkKey_hostname_inj (parse_wf hc) hwf (by rw [← hkc, hkey])
    exact hne (by rw [hinj, hrhost])

theorem c5_host_filter_witness :
    ((⟨"http://a.com/", "a.com"⟩ : FetchEv).url ≠ "http://other.com/x") ∧
    "other.com/x" ∉ (([("a.com", 1), ("a.com/b", 1)] : List (String × Nat)).map Prod.fst) := by
  have hT := c5_host_filter webF "http://a.com/" "http://other.com/x"
    ⟨"http", "a.com", none, "/", "", ""⟩ ⟨"http", "other.com", none, "/x", "", ""⟩
    (by decide) (by decide) (by decide) 10
    ⟨[("a.com", 1), ("a.com/b", 1)],
     [⟨"http://a.com/", "a.com"⟩, ⟨"http://a.com/b", "a.com/b"⟩], 0⟩ (by decide)
  exact ⟨hT.1 ⟨"http://a.com/", "a.com"⟩ (by decide), hT.2 "other.com/x" (by decide)⟩

/-- C6: the addPageVisit admission step increments the visit count of
exactly the admitted key by one — whether newly discovered or already
seen — leaves every other key's count unchanged, and (in the states the
crawler builds, where every stored count is positive) returns true
exactly when the key was previously absent from the ledger. -/
theorem c6_admission (pages : List (String × Nat)) (k : String) :
    lookupCount (addPageVisit pages k).2 k = lookupCount pages k + 1 ∧
    (∀ k', k' ≠ k → lookupCount (addPageVisit pages k).2 k' = lookupCount pages k') ∧
    ((∀ e ∈ pages, 0 < e.2) →
      ((addPageVisit pages k).1 = true ↔ pages.find? (fun kv => kv.1 == k) = none)) := by
  refine ⟨lookup_addPageVisit_self pages k,
    fun k' h => lookup_addPageVisit_ne pages k k' h, ?_⟩
  intro hpos
  rw [addPageVisit_fst]
  unfold lookupCount
  cases hf : pages.find? (fun kv => kv.1 == k) with
  | none => simp
  | some kv =>
    have hkv := hpos kv (List.mem_of_find?_eq_some hf)
    constructor
    · intro h0
      have h2 : kv.2 = 0 := h0
      omega
    · intro hcontra
      exact absurd hcontra (by simp)

theorem c6_admission_witness :
    lookupCount (addPageVisit [("a.com", 2)] "a.com/b").2 "a.com/b"
      = lookupCount [("a.com", 2)] "a.com/b" + 1 ∧
    lookupCount (addPageVisit [("a.com", 2)] "a.com/b").2 "a.com"
      = lookupCount [("a.com", 2)] "a.com" ∧
    ((addPageVisit [("a.com", 2)] "a.com/b").1 = true ↔
      ([("a.com", 2)] : List (String × Nat)).find? (fun kv => kv.1 == "a.com/b") = none) :=
  ⟨(c6_admission [("a.com", 2)] "a.com/b").1,
   (c6_admission [("a.com", 2)] "a.com/b").2.1 "a.com" (by decide),
   (c6_admission [("a.com", 2)] "a.com/b").2.2 (by decide)⟩

/-- C7 counterexample: the claim asserts that any two absolute URLs
differing only by a single trailing slash normalize identically. The
code strips exactly one trailing slash, so a pair whose shorter path
already ends in a slash refutes it: these two URLs differ only by one
trailing slash yet get distinct keys. -/
theorem c7_counterexample :
    normalizeURL "https://a.com/p//" ≠ normalizeURL "https://a.com/p/" := by
  decide

/-- C7 as amended: normalizeURL identifies two absolute URLs whose
parses differ only by the query string, only by the fragment, or only by
one trailing slash added to a path that does not already end in a slash;
the quoted concrete pairs normalize identically; and it throws the
invalid-url error exactly when the input does not parse as a URL at
all. -/
theorem c7_normalize_equiv :
    (∀ (s₁ s₂ : String) (r : URLRec), parseURL s₁ = some r →
      endsSlash r.pathname = false →
      parseURL s₂ = some { r with pathname := r.pathname ++ "/" } →
      normalizeURL s₂ = normalizeURL s₁) ∧
    (∀ (s₁ s₂ : String) (r : URLRec) (q : String), parseURL s₁ = some r →
      parseURL s₂ = some { r with search := q } →
      normalizeURL s₂ = normalizeURL s₁) ∧
    (∀ (s₁ s₂ : String) (r : URLRec) (f : String), parseURL s₁ = some r →
      parseURL s₂ = some { r with fragment := f } →
      normalizeURL s₂ = normalizeURL s₁) ∧
    normalizeURL "https://a.com/p/" = normalizeURL "https://a.com/p" ∧
    normalizeURL "https://a.com/p?x=1" = normalizeURL "https://a.com/p?x=2" ∧
    (∀ s : String, normalizeURL s = .error () ↔ parseURL s = none) := by
  refine ⟨?_, ?_, ?_, by decide, by decide, ?_⟩
  · intro s₁ s₂ r hp1 hslash hp2
    rw [normalize_of_parse hp1, normalize_of_parse hp2]
    unfold mkKey
    rw [show hostStr { r with pathname := r.pathname ++ "/" } = hostStr r from rfl,
      show ({ r with pathname := r.pathname ++ "/" } : URLRec).pathname
        = r.pathname ++ "/" from rfl,
      strip_append_slash, strip_no_slash hslash]
  · intro s₁ s₂ r q hp1 hp2
    rw [normalize_of_parse hp1, normalize_of_parse hp2]
    rfl
  · intro s₁ s₂ r f hp1 hp2
    rw [normalize_of_parse hp1, normalize_of_parse hp2]
    rfl
  · intro s
    unfold normalizeURL
    cases hp : parseURL s with
    | none => simp
    | some r => simp

theorem c7_normalize_equiv_witness :
    normalizeURL "https://a.com/p/" = normalizeURL "https://a.com/p" ∧
    normalizeURL "https://a.com/p?q=1" = normalizeURL "https://a.com/p" ∧
    normalizeURL "https://a.com/p#f" = normalizeURL "https://a.com/p" ∧
    (normalizeURL "nope" = .error () ↔ parseURL "nope" = none) :=
  ⟨c7_normalize_equiv.1 "https://a.com/p" "https://a.com/p/"
      ⟨"https", "a.com", none, "/p", "", ""⟩ (by decide) (by decide) (by decide),
   c7_normalize_equiv.2.1 "https://a.com/p" "https://a.com/p?q=1"
      ⟨"https", "a.com", none, "/p", "", ""⟩ "?q=1" (by decide) (by decide),
   c7_normalize_equiv.2.2.1 "https://a.com/p" "https://a.com/p#f"
      ⟨"https", "a.com", none, "/p", "", ""⟩ "#f" (by decide) (by decide),
   c7_normalize_equiv.2.2.2.2.2 "nope"⟩

/-- C8: an unparsable body yields the all-empty extraction; so does a
body whose document holds no elements (the empty string jsdom returns
for rejected responses); a status of 400 or more, a missing content-type
header, or a non-HTML content type each yield the empty body rather than
an exception; and on a site whose root links to a 500-answering page and
a healthy sibling, the failing branch is recorded but contributes no
links (its outgoing link is never visited) while the sibling is still
crawled. -/
theorem c8_resilience :
    (∀ (parse : String → Option Dom) (html url : String), parse html = none →
      extractPageData parse html url = ⟨url, "", "", [], []⟩) ∧
    (∀ (parse : String → Option Dom) (html url : String), parse html = some emptyDom →
      extractPageData parse html url = ⟨url, "", "", [], []⟩) ∧
    (∀ r : Resp, 400 ≤ r.status → getHTML (some r) = .ok "") ∧
    (∀ r : Resp, r.contentType = none → getHTML (some r) = .ok "") ∧
    (∀ (r : Resp) (ct : String), r.contentType = some ct → htmlCT ct = false →
      getHTML (some r) = .ok "") ∧
    (∃ st, crawl webR "http://a.com/" 10 = some (.ok st) ∧
      0 < lookupCount st.pages "a.com/good" ∧
      0 < lookupCount st.pages "a.com/bad" ∧
      "a.com/x" ∉ st.pages.map Prod.fst) := by
  refine ⟨?_, ?_, ?_, ?_, ?_, ?_⟩
  · intro parse html url h
    unfold extractPageData getH1FromHTML getFirstParagraphFromHTML getURLsFromHTML
      getImagesFromHTML
    rw [h]
  · intro parse html url h
    unfold extractPageData getH1FromHTML getFirstParagraphFromHTML getURLsFromHTML
      getImagesFromHTML
    rw [h]
    rfl
  · intro r h
    unfold getHTML
    show (if 399 < r.status then (Except.ok "" : Except Unit String)
      else match r.contentType with
        | none => .ok ""
        | some ct => if htmlCT ct then .ok r.body else .ok "") = .ok ""
    rw [if_pos (by omega)]
  · intro r h
    unfold getHTML
    show (if 399 < r.status then (Except.ok "" : Except Unit String)
      else match r.contentType with
        | none => .ok ""
        | some ct => if htmlCT ct then .ok r.body else .ok "") = .ok ""
    rw [h]
    by_cases hs : 399 < r.status
    · rw [if_pos hs]
    · rw [if_neg hs]
  · intro r ct h hct
    unfold getHTML
    show (if 399 < r.status then (Except.ok "" : Except Unit String)
      else match r.contentType with
        | none => .ok ""
        | some ct => if htmlCT ct then .ok r.body else .ok "") = .ok ""
    rw [h]
    by_cases hs : 399 < r.status
    · rw [if_pos hs]
    · rw [if_neg hs]
      have : (if htmlCT ct then (Except.ok r.body : Except Unit String) else .ok "")
          = .ok "" := by rw [if_neg (by simp [hct])]
      exact this
  · refine ⟨⟨[("a.com", 1), ("a.com/bad", 1), ("a.com/good", 1)],
      [⟨"http://a.com/", "a.com"⟩, ⟨"http://a.com/bad", "a.com/bad"⟩,
       ⟨"http://a.com/good", "a.com/good"⟩], 0⟩, ?_, ?_, ?_, ?_⟩
    · decide
    · decide
    · decide
    · decide

theorem c8_resilience_witness :
    extractPageData (fun _ => none) "<h1>x</h1>" "http://a.com/" =
      ⟨"http://a.com/", "", "", [], []⟩ ∧
    extractPageData (fun _ => some emptyDom) "" "http://a.com/" =
      ⟨"http://a.com/", "", "", [], []⟩ ∧
    getHTML (some ⟨500, some "text/html", "boom"⟩) = .ok "" ∧
    getHTML (some ⟨200, none, "x"⟩) = .ok "" ∧
    getHTML (some ⟨200, some "application/json", "x"⟩) = .ok "" :=
  ⟨c8_resilience.1 (fun _ => none) "<h1>x</h1>" "http://a.com/" rfl,
   c8_resilience.2.1 (fun _ => some emptyDom) "" "http://a.com/" rfl,
   c8_resilience.2.2.1 ⟨500, some "text/html", "boom"⟩ (by decide),
   c8_resilience.2.2.2.1 ⟨200, none, "x"⟩ rfl,
   c8_resilience.2.2.2.2.1 ⟨200, some "application/json", "x"⟩ "application/json" rfl (by decide)⟩

theorem flatMap_id_of_no_quote {l : List Char} (h : ∀ c ∈ l, ¬(c = '"')) :
    l.flatMap (fun c => if c = '"' then [c, c] else [c]) = l := by
  induction l with
  | nil => rfl
  | cons c rest ih =>
    rw [List.flatMap_cons, if_neg (h c (by simp)),
      ih (fun d hd => h d (by simp [hd]))]
    rfl

theorem escQuotes_eq_flatMap (l : List Char) :
    escQuotes l = l.flatMap (fun c => if c = '"' then [c, c] else [c]) := by
  induction l with
  | nil => rfl
  | cons c rest ih =>
    by_cases h : c = '"' <;> simp [escQuotes, h, ih]

/-- C9: csvEscape wraps the field in double quotes exactly when it
contains a comma, a double quote or a newline, doubling each embedded
double quote; a field containing none of those characters is emitted
unquoted and unchanged. -/
theorem c9_csvEscape (f : String) :
    csvEscape f =
      if f.data.any (fun c => c == '"' || c == ',' || c == '\n') then
        String.mk ('"' :: f.data.flatMap (fun c => if c = '"' then [c, c] else [c]) ++ ['"'])
      else f := by
  unfold csvEscape needsQuoting
  by_cases h : f.data.any (fun c => c == '"' || c == ',' || c == '\n') = true
  · rw [if_pos h, if_pos h]
    apply String.ext
    rw [String.data_append, String.data_append]
    rw [show (String.mk (escQuotes f.data)).data = escQuotes f.data from rfl,
      escQuotes_eq_flatMap]
    rfl
  · rw [if_neg h, if_neg h]
    have hnq : ∀ c ∈ f.data, ¬(c = '"') := by
      intro c hc hcq
      apply h
      rw [List.any_eq_true]
      exact ⟨c, hc, by simp [hcq]⟩
    apply String.ext
    rw [show (String.mk (escQuotes f.data)).data = escQuotes f.data from rfl,
      escQuotes_eq_flatMap, flatMap_id_of_no_quote hnq]

/-- C10: main validates maxConcurrency and maxPages but starts the crawl
as crawlSiteAsync(baseURL) with neither argument: any two valid
invocations differing only in those two arguments perform identical
runs, with gate capacity five and the full unbounded crawl. -/
theorem c10_arguments_dropped (web : Web) (baseURL : String)
    (mc mp mc' mp' : Int) (fuel : Nat)
    (h1 : 0 < mc) (h2 : 0 < mp) (h3 : 0 < mc') (h4 : 0 < mp') :
    mainRun web baseURL mc mp fuel = mainRun web baseURL mc' mp' fuel ∧
    mainRun web baseURL mc mp fuel = some (crawlSiteAsync web baseURL 5 fuel) := by
  unfold mainRun
  rw [if_neg (by omega), if_neg (by omega)]
  exact ⟨rfl, rfl⟩

theorem c10_arguments_dropped_witness :
    mainRun web1 "http://a.com/" 2 7 10 = mainRun web1 "http://a.com/" 9 1 10 ∧
    mainRun web1 "http://a.com/" 2 7 10 = some (crawlSiteAsync web1 "http://a.com/" 5 10) :=
  c10_arguments_dropped web1 "http://a.com/" 2 7 9 1 10
    (by decide) (by decide) (by decide) (by decide)

end Webscraper
